import Mathlib

/-!
Shallow embedding of `src/viewport_configuration_tool/core.py`
(`ViewportConfigurationManager`), the configuration-reconciliation engine of
the ViewportConfigurationTool repository.

File contents are modelled as `Str := List Char`; a folder of config files is
modelled as an association list from filename to file content with dictionary
semantics (`dget` / `dinsert` / `derase` mirror Python `dict` lookup,
`d[k] = v` assignment, and `del d[k]` / `d.pop(k, None)`).  Python's
insertion-ordered dictionaries are association lists whose key order is the
insertion order; `dinsert` updates an existing key in place and appends a new
key at the end, exactly as CPython dictionaries do.
-/

/-- Text (file contents, keys, values) as a list of characters. -/
abbrev Str := List Char

/-- Convert a Lean string literal to the character-list representation. -/
def chars (s : String) : Str := s.toList

/-- A Python dictionary with `Str` keys, as an insertion-ordered association
list with pairwise-distinct keys. -/
abbrev PyDict (α : Type) := List (Str × α)

/-- A config record / a folder listing: dictionary from strings to strings. -/
abbrev Dict := PyDict Str

/-- Python `d.get(k)` / `k in d`: value of the first entry with key `k`. -/
def dget {α : Type} : PyDict α → Str → Option α
  | [], _ => none
  | (k', v) :: rest, k => if k' = k then some v else dget rest k

/-- Python `d[k] = v`: replace the value of an existing key in place,
otherwise append the new binding at the end. -/
def dinsert {α : Type} : PyDict α → Str → α → PyDict α
  | [], k, v => [(k, v)]
  | (k', v') :: rest, k, v =>
      if k' = k then (k, v) :: rest else (k', v') :: dinsert rest k v

/-- Python `del d[k]` / `d.pop(k, None)`: drop the first entry with key `k`. -/
def derase {α : Type} : PyDict α → Str → PyDict α
  | [], _ => []
  | (k', v') :: rest, k => if k' = k then rest else (k', v') :: derase rest k

/-- Keys of a dictionary, in order. -/
def dkeys {α : Type} (d : PyDict α) : List Str := d.map Prod.fst

/-! ### Python string primitives -/

/-- Characters stripped by Python `str.strip()` (ASCII whitespace). -/
def pyIsSpace (c : Char) : Bool :=
  c = ' ' || c = '\t' || c = '\n' || c = '\r' || c = '\x0b' || c = '\x0c'

/-- Drop the longest suffix all of whose characters satisfy `p`. -/
def dropTrailing (p : Char → Bool) (l : Str) : Str :=
  (l.reverse.dropWhile p).reverse

/-- Python `str.strip()`: remove leading and trailing whitespace. -/
def pyStrip (l : Str) : Str := dropTrailing pyIsSpace (l.dropWhile pyIsSpace)

/-- Split text into lines the way Python's universal-newline text reading
does: `\n`, `\r\n` and `\r` all terminate a line.  A trailing terminator
yields a final empty piece (which the config reader then ignores). -/
def splitLinesU : Str → List Str
  | [] => [[]]
  | '\r' :: '\n' :: cs => [] :: splitLinesU cs
  | '\n' :: cs => [] :: splitLinesU cs
  | '\r' :: cs => [] :: splitLinesU cs
  | c :: cs =>
      match splitLinesU cs with
      | [] => [[c]]
      | l :: ls => (c :: l) :: ls

/-- Python `line.startswith('#')`. -/
def startsWithHash : Str → Bool
  | [] => false
  | c :: _ => c = '#'

/-! ### Reading config files (`ViewportConfigurationManager.read_config_file`,
core.py lines 163-181) -/

/-- One iteration of the read loop: strip the line; if it contains `=` and
does not start with `#`, split at the first `=` and store the stripped key
and value (`config[key.strip()] = value.strip()`). -/
def parse_line (config : Dict) (raw : Str) : Dict :=
  let line := pyStrip raw
  if '=' ∈ line ∧ startsWithHash line = false then
    dinsert config (pyStrip (line.takeWhile (fun c => !(c == '='))))
      (pyStrip ((line.dropWhile (fun c => !(c == '='))).tail))
  else config

/-- Parse the full text of a config file into a record. -/
def read_config_string (content : Str) : Dict :=
  (splitLinesU content).foldl parse_line []

/-- `read_config_file`: the record stored in file `path` of folder `fs`,
or the empty record when the file does not exist. -/
def read_config_file (fs : Dict) (path : Str) : Dict :=
  match dget fs path with
  | some content => read_config_string content
  | none => []

/-! ### Writing config files (`write_config_file`, core.py lines 183-209) -/

/-- The preferred emission order of the viewport settings
(`viewport_order` in `write_config_file`). -/
def viewport_order : List Str :=
  [chars "aspect_ratio_index", chars "custom_viewport_x",
   chars "custom_viewport_y", chars "custom_viewport_width",
   chars "custom_viewport_height"]

/-- Python string comparison (strict, lexicographic by code point). -/
def charListLt : Str → Str → Bool
  | [], [] => false
  | [], _ :: _ => true
  | _ :: _, [] => false
  | a :: as, b :: bs => if a < b then true else if a = b then charListLt as bs else false

/-- Non-strict Python string comparison. -/
def charListLe (x y : Str) : Bool := charListLt x y || x == y

/-- Python tuple comparison on `(key, value)` pairs, as used by
`sorted(config.items())`. -/
def pairLe (p q : Str × Str) : Bool :=
  if p.1 = q.1 then charListLe p.2 q.2 else charListLt p.1 q.1

/-- One output line: `f'{key} = {value}\n'`. -/
def mkLine (k v : Str) : Str := k ++ ' ' :: '=' :: ' ' :: (v ++ ['\n'])

/-- The key/value pairs of a record in the order `write_config_file` emits
them: viewport keys present in the record first, in `viewport_order`, then
all remaining pairs sorted as `sorted(config.items())` sorts them. -/
def emit_pairs (config : Dict) : Dict :=
  viewport_order.filterMap (fun k => (dget config k).map (fun v => (k, v)))
    ++ (config.filter (fun p => !(viewport_order.contains p.1))).mergeSort pairLe

/-- `write_config_file`: serialize a record to file text. -/
def write_config_file (config : Dict) : Str :=
  ((emit_pairs config).map (fun p => mkLine p.1 p.2)).flatten

/-! ### Decimal rendering (Python `str(int)` inside the f-strings) -/

/-- Decimal digits with an explicit fuel bound; the fuel used below is
always sufficient, and this shape keeps the function structurally
recursive (so concrete renderings reduce). -/
def natStrGo : Nat → Nat → Str
  | 0, _ => []
  | fuel + 1, n =>
      if n < 10 then [Char.ofNat (48 + n)]
      else natStrGo fuel (n / 10) ++ [Char.ofNat (48 + n % 10)]

/-- Decimal digits of a natural number, most significant first. -/
def natStr (n : Nat) : Str := natStrGo (n + 1) n

/-- Python `str` of an integer. -/
def intStr (n : Int) : Str :=
  if n < 0 then '-' :: natStr n.natAbs else natStr n.toNat

/-- Python `f'"{n}"'`: a value wrapped in literal double quotes. -/
def quoteVal (s : Str) : Str := '"' :: (s ++ ['"'])

/-! ### `update_rom_config` (core.py lines 211-245) -/

/-- The config filename for a ROM: `f"{rom_name}.zip.cfg"`. -/
def cfg_path (rom_name : Str) : Str := rom_name ++ chars ".zip.cfg"

/-- The in-memory record update performed by `update_rom_config`
(core.py lines 230-236): unconditionally set the five viewport keys,
x/y defaulting to 0 when `None`, aspect_ratio_index fixed to `"23"`. -/
def apply_viewport (config : Dict) (width height : Int) (x y : Option Int) : Dict :=
  dinsert
    (dinsert
      (dinsert
        (dinsert
          (dinsert config (chars "custom_viewport_width") (quoteVal (intStr width)))
          (chars "custom_viewport_height") (quoteVal (intStr height)))
        (chars "custom_viewport_x") (quoteVal (intStr (x.getD 0))))
      (chars "custom_viewport_y") (quoteVal (intStr (y.getD 0))))
    (chars "aspect_ratio_index") (quoteVal (chars "23"))

/-- `update_rom_config`: read the existing config (empty if the file is
absent), set the five viewport keys, and write the record back. -/
def update_rom_config (fs : Dict) (rom_name : Str) (width height : Int)
    (x y : Option Int) : Dict :=
  let path := cfg_path rom_name
  let config := read_config_file fs path
  dinsert fs path (write_config_file (apply_viewport config width height x y))

/-! ### `remove_rom_config` (core.py lines 247-302) -/

/-- The five viewport keys, in the order the removal loop visits them. -/
def viewport_keys : List Str :=
  [chars "custom_viewport_width", chars "custom_viewport_height",
   chars "custom_viewport_x", chars "custom_viewport_y",
   chars "aspect_ratio_index"]

/-- Delete the five viewport keys from a record.  The Python loop deletes
each key that is present while noting whether any was; deleting one key
never affects the presence of another, so the fold is the same record. -/
def remove_viewport (config : Dict) : Dict :=
  viewport_keys.foldl (fun c k => derase c k) config

/-- Result of `remove_rom_config`: the folder afterwards, the returned
`(removed, is_empty)` pair, and the line sent to the logging sink. -/
structure RemoveResult where
  fs : Dict
  removed : Bool
  is_empty : Bool
  log_msg : Str

/-- `remove_rom_config rom_name delete_if_empty`: remove the viewport
override settings from one ROM's config file. -/
def remove_rom_config (fs : Dict) (rom_name : Str) (delete_if_empty : Bool) :
    RemoveResult :=
  let path := cfg_path rom_name
  if (dget fs path).isSome then
    let config := read_config_file fs path
    let removed_any := viewport_keys.any (fun k => (dget config k).isSome)
    if removed_any then
      let config2 := remove_viewport config
      let is_empty := config2.isEmpty
      if is_empty && delete_if_empty then
        ⟨derase fs path, true, true,
          chars "Removed config file for " ++ rom_name
            ++ chars ".zip (was empty after removing overrides)"⟩
      else if is_empty then
        ⟨dinsert fs path (write_config_file config2), true, true,
          chars "Config for " ++ rom_name
            ++ chars ".zip is now empty after removing overrides"⟩
      else
        ⟨dinsert fs path (write_config_file config2), true, false,
          chars "Removed viewport overrides from " ++ rom_name ++ chars ".zip config"⟩
    else
      ⟨fs, false, false,
        chars "No viewport overrides found in config for " ++ rom_name ++ chars ".zip"⟩
  else
    ⟨fs, false, false, chars "No config file found for " ++ rom_name ++ chars ".zip"⟩

/-! ### `remove_all_overrides` (core.py lines 330-392) -/

/-- The keys `remove_all_overrides` tests and pops (core.py lines 366-373).
Note: only three of the five viewport keys. -/
def removeall_keys : List Str :=
  [chars "custom_viewport_width", chars "custom_viewport_height",
   chars "aspect_ratio_index"]

/-- One iteration of the `remove_all_overrides` loop over one config file:
returns the updated folder and whether the file counted as removed. -/
def remove_all_step (fs : Dict) (fname : Str) : Dict × Bool :=
  let config := read_config_file fs fname
  let has_overrides := removeall_keys.any (fun k => (dget config k).isSome)
  if has_overrides then
    let config2 := removeall_keys.foldl (fun c k => derase c k) config
    if config2.isEmpty then (derase fs fname, true)
    else (dinsert fs fname (write_config_file config2), true)
  else (fs, false)

/-- `remove_all_overrides`: enumerate the `*.zip.cfg` files of the folder
and process each; returns the folder and `(removed_count, skipped_count)`. -/
def remove_all_overrides (fs : Dict) : Dict × Nat × Nat :=
  let files := (dkeys fs).filter (fun n => decide (chars ".zip.cfg" <:+ n))
  files.foldl (fun acc fname =>
    let st := remove_all_step acc.1 fname
    (st.1, (if st.2 then acc.2.1 + 1 else acc.2.1),
      (if st.2 then acc.2.2 else acc.2.2 + 1))) (fs, 0, 0)

/-! ### `process_roms` (core.py lines 394-434) -/

/-- The override state and parsed catalog of a
`ViewportConfigurationManager`. -/
structure Manager where
  override_width : Option Int
  override_height : Option Int
  override_x : Option Int
  override_y : Option Int
  game_resolutions : PyDict (Int × Int)

/-- `process_roms`: for each ROM name, when the catalog has a resolution
entry, apply the override-or-catalog width/height (x/y always from the
override) via `update_rom_config`; otherwise count it skipped.  Returns the
folder and `(processed_count, skipped_count)`. -/
def process_roms (m : Manager) (fs : Dict) (roms : List Str) : Dict × Nat × Nat :=
  roms.foldl (fun acc rom_name =>
    match dget m.game_resolutions rom_name with
    | some wh =>
        (update_rom_config acc.1 rom_name (m.override_width.getD wh.1)
          (m.override_height.getD wh.2) m.override_x m.override_y,
         acc.2.1 + 1, acc.2.2)
    | none => (acc.1, acc.2.1, acc.2.2 + 1)) (fs, 0, 0)

/-! ### Well-formedness of keys and values -/

/-- Keys the reader itself can produce: stripped, free of `=`, free of line
terminators, not starting with `#`. -/
def goodKey (k : Str) : Prop :=
  startsWithHash k = false ∧ '=' ∉ k ∧ '\n' ∉ k ∧ '\r' ∉ k ∧ pyStrip k = k

/-- Values the reader itself can produce: stripped and free of line
terminators. -/
def goodVal (v : Str) : Prop := '\n' ∉ v ∧ '\r' ∉ v ∧ pyStrip v = v

/-- A well-formed record: every pair is reader-shaped and keys are distinct. -/
def goodDict (d : Dict) : Prop :=
  (∀ q ∈ d, goodKey q.1 ∧ goodVal q.2) ∧ (dkeys d).Nodup

instance (k : Str) : Decidable (goodKey k) := by
  unfold goodKey; infer_instance

instance (v : Str) : Decidable (goodVal v) := by
  unfold goodVal; infer_instance

instance (d : Dict) : Decidable (goodDict d) := by
  unfold goodDict; infer_instance

/-! ### The catalog parser (`parse_dat_file`, core.py lines 64-151).
Only the resolution-extraction path is modelled (name, display/video
width/height attributes, the integer parse, the per-game warning and the
resolutions map); the descriptive metadata fields do not influence it. -/

/-- One `game` element: its name and, when a `display` (resp. `video`)
descendant exists, that element's `width`/`height` attributes (an absent
attribute is `none`). -/
structure GameElem where
  name : Str
  display : Option (Option Str × Option Str)
  video : Option (Option Str × Option Str)

/-- Python truthiness of an optional string: `None` and `""` are falsy. -/
def truthyS : Option Str → Bool
  | none => false
  | some s => !s.isEmpty

/-- The width/height pair after the display-then-video fallback of
core.py lines 98-113. -/
def effective_wh (g : GameElem) : Option Str × Option Str :=
  let p := match g.display with
    | some q => q
    | none => ((none : Option Str), (none : Option Str))
  if !truthyS p.1 || !truthyS p.2 then
    match g.video with
    | some q => q
    | none => p
  else p

/-- Digits of a Python int literal after the first digit: single
underscores are allowed between digits only. -/
def py_digits_go (acc : Nat) : Str → Option Nat
  | [] => some acc
  | c :: rest =>
      if c.isDigit then py_digits_go (acc * 10 + (c.toNat - 48)) rest
      else if c = '_' then
        match rest with
        | [] => none
        | c2 :: rest2 =>
            if c2.isDigit then py_digits_go (acc * 10 + (c2.toNat - 48)) rest2
            else none
      else none

/-- A nonempty ASCII digit run with optional internal underscores. -/
def py_digits : Str → Option Nat
  | [] => none
  | c :: rest => if c.isDigit then py_digits_go (c.toNat - 48) rest else none

/-- Python `int(str)` on ASCII decimal strings: strip whitespace, optional
sign, then digits; `none` models the `ValueError`. -/
def py_int (s : Str) : Option Int :=
  match pyStrip s with
  | '+' :: rest => (py_digits rest).map (fun n => (n : Int))
  | '-' :: rest => (py_digits rest).map (fun n => -(n : Int))
  | rest => (py_digits rest).map (fun n => (n : Int))

/-- The per-game outcome of the resolution scan (core.py lines 115-134):
the stored `(width, height)` entry if any, and the warning line if one is
logged. -/
def parse_game (g : GameElem) : Option (Int × Int) × Option Str :=
  let wh := effective_wh g
  if truthyS wh.1 && truthyS wh.2 then
    let ws := wh.1.getD []
    let hs := wh.2.getD []
    match py_int ws, py_int hs with
    | some w, some h => (some (w, h), none)
    | _, _ => (none, some (chars "Warning: Invalid resolution for "
        ++ g.name ++ chars ": " ++ ws ++ chars "x" ++ hs))
  else (none, none)

/-- The whole scan over the catalog's game elements: the
`game_resolutions` map and the warning lines, in order. -/
def parse_dat (games : List GameElem) : PyDict (Int × Int) × List Str :=
  games.foldl (fun acc g =>
    match parse_game g with
    | (some wh, _) => (dinsert acc.1 g.name wh, acc.2)
    | (none, some w) => (acc.1, acc.2 ++ [w])
    | (none, none) => acc) ([], [])

/-! ## Lemmas and claim theorems -/

theorem dget_dinsert_self {α : Type} (d : PyDict α) (k : Str) (v : α) :
    dget (dinsert d k v) k = some v := by
  induction d with
  | nil => simp [dget, dinsert]
  | cons p rest ih =>
      obtain ⟨k0, v0⟩ := p
      by_cases h0 : k0 = k
      · subst h0
        rw [dinsert, if_pos rfl, dget, if_pos rfl]
      · rw [dinsert, if_neg h0, dget, if_neg h0]
        exact ih

theorem dget_dinsert_ne {α : Type} (d : PyDict α) (k k' : Str) (v : α)
    (h : k' ≠ k) : dget (dinsert d k v) k' = dget d k' := by
  induction d with
  | nil => simp [dget, dinsert, Ne.symm h]
  | cons p rest ih =>
      obtain ⟨k0, v0⟩ := p
      by_cases h0 : k0 = k
      · subst h0
        rw [dinsert, if_pos rfl, dget, if_neg (Ne.symm h), dget,
          if_neg (Ne.symm h)]
      · rw [dinsert, if_neg h0, dget, dget]
        by_cases h1 : k0 = k' <;> simp [h1, ih]

theorem dget_derase_ne {α : Type} (d : PyDict α) (k k' : Str)
    (h : k' ≠ k) : dget (derase d k) k' = dget d k' := by
  induction d with
  | nil => simp [derase]
  | cons p rest ih =>
      obtain ⟨k0, v0⟩ := p
      by_cases h0 : k0 = k
      · subst h0
        rw [derase, if_pos rfl, dget, if_neg (Ne.symm h)]
      · rw [derase, if_neg h0, dget, dget]
        by_cases h1 : k0 = k' <;> simp [h1, ih]

theorem dget_isSome_of_mem {α : Type} {d : PyDict α} {k : Str} {v : α}
    (h : (k, v) ∈ d) : (dget d k).isSome := by
  induction d with
  | nil => cases h
  | cons p rest ih =>
      obtain ⟨k0, v0⟩ := p
      rcases List.mem_cons.1 h with h | h
      · rw [Prod.mk.injEq] at h
        rw [dget, if_pos h.1.symm]
        rfl
      · by_cases h0 : k0 = k
        · rw [dget, if_pos h0]; rfl
        · rw [dget, if_neg h0]; exact ih h

theorem mem_of_dget_eq_some {α : Type} {d : PyDict α} {k : Str} {v : α}
    (h : dget d k = some v) : (k, v) ∈ d := by
  induction d with
  | nil => simp [dget] at h
  | cons p rest ih =>
      obtain ⟨k0, v0⟩ := p
      by_cases h0 : k0 = k
      · subst h0
        rw [dget, if_pos rfl, Option.some_inj] at h
        subst h
        exact List.mem_cons_self _ _
      · rw [dget, if_neg h0] at h
        exact List.mem_cons_of_mem _ (ih h)

theorem dget_eq_none_iff {α : Type} {d : PyDict α} {k : Str} :
    dget d k = none ↔ k ∉ dkeys d := by
  induction d with
  | nil => simp [dget, dkeys]
  | cons p rest ih =>
      obtain ⟨k0, v0⟩ := p
      by_cases h0 : k0 = k
      · subst h0
        rw [dget, if_pos rfl]
        constructor
        · intro hc; cases hc
        · intro hc
          exact absurd (List.mem_cons_self _ _) hc
      · rw [dget, if_neg h0, ih]
        constructor
        · intro hk hmem
          rcases List.mem_cons.1 hmem with hc | hc
          · exact h0 hc.symm
          · exact hk hc
        · intro hmem hk
          exact hmem (List.mem_cons_of_mem _ hk)

theorem dget_eq_some_of_nodup {α : Type} {d : PyDict α} {k : Str} {v : α}
    (hd : (dkeys d).Nodup) (h : (k, v) ∈ d) : dget d k = some v := by
  induction d with
  | nil => cases h
  | cons p rest ih =>
      obtain ⟨k0, v0⟩ := p
      rw [dkeys, List.map_cons] at hd
      obtain ⟨hk0, hrest⟩ := List.nodup_cons.1 hd
      rcases List.mem_cons.1 h with h | h
      · rw [Prod.mk.injEq] at h
        rw [dget, if_pos h.1.symm, h.2]
      · have hkmem : k ∈ dkeys rest := List.mem_map.2 ⟨(k, v), h, rfl⟩
        have hk : ¬ k0 = k := fun hkk => hk0 (hkk ▸ hkmem)
        rw [dget, if_neg hk]
        exact ih hrest h

theorem dkeys_dinsert {α : Type} (d : PyDict α) (k : Str) (v : α) :
    dkeys (dinsert d k v) = if k ∈ dkeys d then dkeys d else dkeys d ++ [k] := by
  induction d with
  | nil => simp [dinsert, dkeys]
  | cons p rest ih =>
      obtain ⟨k0, v0⟩ := p
      by_cases h0 : k0 = k
      · subst h0
        rw [dinsert, if_pos rfl,
          if_pos (show k0 ∈ dkeys ((k0, v0) :: rest) from List.mem_cons_self _ _)]
        rfl
      · have hne : ¬ k = k0 := fun h => h0 h.symm
        rw [dinsert, if_neg h0,
          show dkeys ((k0, v0) :: dinsert rest k v) = k0 :: dkeys (dinsert rest k v) from rfl,
          show dkeys ((k0, v0) :: rest) = k0 :: dkeys rest from rfl, ih]
        by_cases hk : k ∈ dkeys rest
        · rw [if_pos hk, if_pos (List.mem_cons_of_mem _ hk)]
        · rw [if_neg hk, if_neg (fun hc => by
            rcases List.mem_cons.1 hc with hc | hc
            · exact hne hc
            · exact hk hc), List.cons_append]

theorem nodup_dkeys_dinsert {α : Type} {d : PyDict α} (k : Str) (v : α)
    (hd : (dkeys d).Nodup) : (dkeys (dinsert d k v)).Nodup := by
  rw [dkeys_dinsert]
  by_cases hk : k ∈ dkeys d
  · simpa [hk] using hd
  · simp [hk, List.nodup_append, hd]

theorem mem_dinsert {α : Type} {d : PyDict α} {k : Str} {v : α} {p : Str × α}
    (h : p ∈ dinsert d k v) : p ∈ d ∨ p = (k, v) := by
  induction d with
  | nil =>
      rw [dinsert] at h
      right
      exact List.mem_singleton.1 h
  | cons q rest ih =>
      obtain ⟨k0, v0⟩ := q
      by_cases h0 : k0 = k
      · subst h0
        rw [dinsert, if_pos rfl] at h
        rcases List.mem_cons.1 h with h | h
        · right; exact h
        · left; exact List.mem_cons_of_mem _ h
      · rw [dinsert, if_neg h0] at h
        rcases List.mem_cons.1 h with h | h
        · left
          subst h
          exact List.mem_cons_self _ _
        · rcases ih h with h | h
          · left; exact List.mem_cons_of_mem _ h
          · right; exact h

theorem mem_derase {α : Type} {d : PyDict α} {k : Str} {p : Str × α}
    (h : p ∈ derase d k) : p ∈ d := by
  induction d with
  | nil => rw [derase] at h; cases h
  | cons q rest ih =>
      obtain ⟨k0, v0⟩ := q
      by_cases h0 : k0 = k
      · subst h0
        rw [derase, if_pos rfl] at h
        exact List.mem_cons_of_mem _ h
      · rw [derase, if_neg h0] at h
        rcases List.mem_cons.1 h with h | h
        · subst h; exact List.mem_cons_self _ _
        · exact List.mem_cons_of_mem _ (ih h)

/-- With pairwise-distinct keys, deleting key `k` is filtering it out. -/
theorem derase_eq_filter {α : Type} {d : PyDict α} (k : Str)
    (hd : (dkeys d).Nodup) :
    derase d k = d.filter (fun p => !(decide (p.1 = k))) := by
  induction d with
  | nil => rfl
  | cons q rest ih =>
      obtain ⟨k0, v0⟩ := q
      obtain ⟨hk0, hrest⟩ := List.nodup_cons.1 hd
      by_cases h0 : k0 = k
      · subst h0
        have hself : rest.filter (fun p => !(decide (p.1 = k0))) = rest :=
          List.filter_eq_self.2 (fun p hp => by
            simp only [Bool.not_eq_true', decide_eq_false_iff_not]
            exact fun hk => hk0 (hk ▸ List.mem_map.2 ⟨p, hp, rfl⟩))
        rw [derase, if_pos rfl]
        simp [hself]
      · rw [derase, if_neg h0]
        simp [h0, ih hrest]

theorem nodup_dkeys_derase {α : Type} {d : PyDict α} (k : Str)
    (hd : (dkeys d).Nodup) : (dkeys (derase d k)).Nodup := by
  rw [derase_eq_filter k hd]
  exact ((List.filter_sublist d).map Prod.fst).nodup hd

/-! ### Lemmas about `pyStrip` -/

theorem dropTrailing_isPrefix (p : Char → Bool) (l : Str) :
    dropTrailing p l <+: l := by
  have h : (l.reverse).dropWhile p <:+ l.reverse := List.dropWhile_suffix p
  have h2 := List.reverse_prefix.2 h
  simpa [dropTrailing] using h2

theorem mem_dropTrailing {p : Char → Bool} {l : Str} {a : Char}
    (h : a ∈ dropTrailing p l) : a ∈ l :=
  (dropTrailing_isPrefix p l).subset h

theorem mem_pyStrip {l : Str} {a : Char} (h : a ∈ pyStrip l) : a ∈ l :=
  List.dropWhile_subset _ (mem_dropTrailing h)

theorem dropTrailing_concat_of_neg {p : Char → Bool} {d : Char} (l : Str)
    (h : ¬ p d = true) : dropTrailing p (l ++ [d]) = l ++ [d] := by
  rw [dropTrailing, List.reverse_append]
  simp [List.dropWhile_cons_of_neg h]

theorem dropTrailing_cons_of_neg {p : Char → Bool} {c : Char} (t : Str)
    (h : ¬ p c = true) : dropTrailing p (c :: t) = c :: dropTrailing p t := by
  rw [dropTrailing, dropTrailing, List.reverse_cons, List.dropWhile_append]
  by_cases he : (t.reverse.dropWhile p).isEmpty
  · rw [if_pos he]
    rw [List.isEmpty_iff] at he
    simp [he, List.dropWhile_cons_of_neg h]
  · rw [if_neg he]
    simp

theorem dropWhile_eq_self_of_pyStrip {p : Char → Bool} {l : Str}
    (h : dropTrailing p (l.dropWhile p) = l) : l.dropWhile p = l := by
  obtain ⟨t, ht⟩ := (List.dropWhile_suffix p : l.dropWhile p <:+ l)
  have hlen1 : (dropTrailing p (l.dropWhile p)).length ≤ (l.dropWhile p).length :=
    (dropTrailing_isPrefix p _).length_le
  have hlen2 : t.length + (l.dropWhile p).length = l.length := by
    have := congrArg List.length ht
    simpa [List.length_append] using this
  have hlen0 := congrArg List.length h
  have ht0 : t = [] := List.eq_nil_of_length_eq_zero (by omega)
  subst ht0
  simpa using ht

theorem dropTrailing_eq_self_of_pyStrip {p : Char → Bool} {l : Str}
    (h : dropTrailing p (l.dropWhile p) = l) : dropTrailing p l = l := by
  have hd := dropWhile_eq_self_of_pyStrip h
  rw [hd] at h
  exact h

theorem not_head_of_dropWhile_eq_self {p : Char → Bool} {c : Char} {t : Str}
    (h : (c :: t).dropWhile p = c :: t) : ¬ p c = true := by
  intro hp
  rw [List.dropWhile_cons_of_pos hp] at h
  have h1 : (t.dropWhile p).length ≤ t.length := (List.dropWhile_sublist p).length_le
  have h2 := congrArg List.length h
  simp at h2
  omega

theorem pyStrip_head_not {c : Char} {t : Str} (h : pyStrip (c :: t) = c :: t) :
    ¬ pyIsSpace c = true :=
  not_head_of_dropWhile_eq_self (dropWhile_eq_self_of_pyStrip h)

theorem pyStrip_last_not {d : Char} {l : Str} (h : pyStrip (l ++ [d]) = l ++ [d]) :
    ¬ pyIsSpace d = true := by
  have hdt : dropTrailing pyIsSpace (l ++ [d]) = l ++ [d] :=
    dropTrailing_eq_self_of_pyStrip h
  have hrev : ((l ++ [d]).reverse).dropWhile pyIsSpace = (l ++ [d]).reverse := by
    have := congrArg List.reverse hdt
    rwa [dropTrailing, List.reverse_reverse] at this
  rw [List.reverse_append, List.reverse_singleton, List.singleton_append] at hrev
  exact not_head_of_dropWhile_eq_self hrev

theorem pyStrip_eq_self_of_ends {c d : Char} {mid : Str}
    (hc : ¬ pyIsSpace c = true) (hd : ¬ pyIsSpace d = true) :
    pyStrip (c :: (mid ++ [d])) = c :: (mid ++ [d]) := by
  rw [pyStrip, List.dropWhile_cons_of_neg hc,
    show c :: (mid ++ [d]) = (c :: mid) ++ [d] from rfl,
    dropTrailing_concat_of_neg _ hd]

theorem pyStrip_singleton_of_neg {c : Char} (hc : ¬ pyIsSpace c = true) :
    pyStrip [c] = [c] := by
  have hdt := dropTrailing_concat_of_neg ([] : Str) hc
  simp only [List.nil_append] at hdt
  rw [pyStrip, List.dropWhile_cons_of_neg hc, hdt]

theorem dropWhile_idem (p : Char → Bool) (l : Str) :
    (l.dropWhile p).dropWhile p = l.dropWhile p := by
  induction l with
  | nil => rfl
  | cons c t ih =>
      by_cases h : p c
      · rw [List.dropWhile_cons_of_pos h]; exact ih
      · rw [List.dropWhile_cons_of_neg h, List.dropWhile_cons_of_neg h]

theorem dropTrailing_idem (p : Char → Bool) (l : Str) :
    dropTrailing p (dropTrailing p l) = dropTrailing p l := by
  rw [dropTrailing, dropTrailing, List.reverse_reverse, dropWhile_idem]

theorem dropWhile_dropTrailing_of_dropWhile {p : Char → Bool} {x : Str}
    (h : x.dropWhile p = x) :
    (dropTrailing p x).dropWhile p = dropTrailing p x := by
  rcases hy : dropTrailing p x with _ | ⟨c, t⟩
  · rfl
  · obtain ⟨s, hsx⟩ := dropTrailing_isPrefix p x
    rw [hy] at hsx
    have hx : x = c :: (t ++ s) := by rw [← hsx]; rfl
    have hc : ¬ p c = true := by
      have hdw : (c :: (t ++ s)).dropWhile p = c :: (t ++ s) := by
        rw [← hx]; exact h
      exact not_head_of_dropWhile_eq_self hdw
    rw [List.dropWhile_cons_of_neg hc]

theorem pyStrip_idem (l : Str) : pyStrip (pyStrip l) = pyStrip l := by
  rw [pyStrip, pyStrip,
    dropWhile_dropTrailing_of_dropWhile (dropWhile_idem pyIsSpace l),
    dropTrailing_idem]

theorem pyStrip_cons_space {c : Char} (t : Str) (h : pyIsSpace c = true) :
    pyStrip (c :: t) = pyStrip t := by
  rw [pyStrip, pyStrip, List.dropWhile_cons_of_pos h]

theorem dropTrailing_concat_pos {p : Char → Bool} {c : Char} (l : Str)
    (h : p c = true) : dropTrailing p (l ++ [c]) = dropTrailing p l := by
  rw [dropTrailing, dropTrailing, List.reverse_append, List.reverse_singleton,
    List.singleton_append, List.dropWhile_cons_of_pos h]

theorem pyStrip_append_space {k : Str} (h : pyStrip k = k) :
    pyStrip (k ++ [' ']) = k := by
  cases k with
  | nil => decide
  | cons c t =>
      have hc : ¬ pyIsSpace c = true := pyStrip_head_not h
      have hdt : dropTrailing pyIsSpace (c :: t) = c :: t :=
        dropTrailing_eq_self_of_pyStrip h
      rw [pyStrip, List.cons_append, List.dropWhile_cons_of_neg hc,
        ← List.cons_append, dropTrailing_concat_pos _ (by decide), hdt]

theorem startsWithHash_cons (c : Char) (t : Str) :
    startsWithHash (c :: t) = decide (c = '#') := rfl

/-! ### Lemmas about `splitLinesU` -/

theorem splitLinesU_cons_other {c : Char} (cs : Str) (h1 : ¬ c = '\n')
    (h2 : ¬ c = '\r') :
    splitLinesU (c :: cs) =
      match splitLinesU cs with
      | [] => [[c]]
      | l :: ls => (c :: l) :: ls := by
  simp [splitLinesU, h1, h2]

theorem splitLinesU_ne_nil (s : Str) : splitLinesU s ≠ [] := by
  induction s using splitLinesU.induct <;> simp [splitLinesU] <;> simp_all

/-- Splitting off one complete newline-free line. -/
theorem splitLinesU_line (body rest : Str)
    (h : ∀ c ∈ body, ¬ c = '\n' ∧ ¬ c = '\r') :
    splitLinesU (body ++ '\n' :: rest) = body :: splitLinesU rest := by
  induction body with
  | nil => simp [splitLinesU]
  | cons c body ih =>
      have hc := h c (List.mem_cons_self _ _)
      rw [List.cons_append, splitLinesU_cons_other _ hc.1 hc.2,
        ih (fun a ha => h a (List.mem_cons_of_mem _ ha))]

theorem splitLinesU_no_newline {s : Str} :
    ∀ l ∈ splitLinesU s, ∀ c ∈ l, ¬ c = '\n' ∧ ¬ c = '\r' := by
  induction s using splitLinesU.induct with
  | case1 =>
      intro l hl c hc
      simp [splitLinesU] at hl
      subst hl; cases hc
  | case2 cs ih =>
      intro l hl c hc
      rw [show splitLinesU ('\r' :: '\n' :: cs) = [] :: splitLinesU cs from rfl] at hl
      rcases List.mem_cons.1 hl with rfl | hl
      · cases hc
      · exact ih l hl c hc
  | case3 cs ih =>
      intro l hl c hc
      rw [show splitLinesU ('\n' :: cs) = [] :: splitLinesU cs from rfl] at hl
      rcases List.mem_cons.1 hl with rfl | hl
      · cases hc
      · exact ih l hl c hc
  | case4 cs hne ih =>
      intro l hl c hc
      have he : splitLinesU ('\r' :: cs) = [] :: splitLinesU cs := by
        cases cs with
        | nil => rfl
        | cons a cs2 =>
            by_cases ha : a = '\n'
            · subst ha; exact absurd rfl (hne cs2)
            · simp [splitLinesU, ha]
      rw [he] at hl
      rcases List.mem_cons.1 hl with rfl | hl
      · cases hc
      · exact ih l hl c hc
  | case5 c0 cs hne h1 h2 hnil ih =>
      intro l hl c hc
      rw [splitLinesU_cons_other cs h1 h2, hnil] at hl
      rcases List.mem_singleton.1 hl with rfl
      rcases List.mem_singleton.1 hc with rfl
      exact ⟨h1, h2⟩
  | case6 c0 cs hne h1 h2 l0 ls hcons ih =>
      intro l hl c hc
      rw [splitLinesU_cons_other cs h1 h2, hcons] at hl
      rcases List.mem_cons.1 hl with rfl | hl
      · rcases List.mem_cons.1 hc with rfl | hc
        · exact ⟨h1, h2⟩
        · exact ih l0 (by rw [hcons]; exact List.mem_cons_self _ _) c hc
      · exact ih l (by rw [hcons]; exact List.mem_cons_of_mem _ hl) c hc

/-! ### Parsing one emitted line -/

/-- Parsing the body of an emitted line `key = value` recovers exactly the
pair that was written, for keys and values of the shape the reader itself
produces (stripped, key free of `=`, key not starting with `#`). -/
theorem parse_line_pair (acc : Dict) {k v : Str}
    (hk0 : startsWithHash k = false) (hk1 : '=' ∉ k) (hk2 : pyStrip k = k)
    (hv : pyStrip v = v) :
    parse_line acc (k ++ ' ' :: '=' :: ' ' :: v) = dinsert acc k v := by
  have hpk : ∀ a ∈ k, (!(a == '=')) = true := by
    intro a ha
    simp only [Bool.not_eq_true', beq_eq_false_iff_ne]
    exact fun he => hk1 (he ▸ ha)
  rcases List.eq_nil_or_concat v with rfl | ⟨v0, d, rfl⟩
  · cases k with
    | nil =>
        have h1 : pyStrip ([] ++ ' ' :: '=' :: ' ' :: []) = ['='] := by decide
        have h2 : pyStrip (List.takeWhile (fun c => !(c == '=')) ['=']) = [] := by
          decide
        have h3 : pyStrip (List.tail (List.dropWhile (fun c => !(c == '=')) ['='])) = [] := by
          decide
        simp only [parse_line, h1]
        rw [if_pos (by decide), h2, h3]
    | cons ck kt =>
        have hc : ¬ pyIsSpace ck = true := pyStrip_head_not hk2
        have hline : pyStrip ((ck :: kt) ++ ' ' :: '=' :: ' ' :: []) =
            (ck :: kt) ++ [' ', '='] := by
          rw [pyStrip, List.cons_append, List.dropWhile_cons_of_neg hc,
            ← List.cons_append,
            show (ck :: kt) ++ [' ', '=', ' ']
              = (((ck :: kt) ++ [' ']) ++ ['=']) ++ [' '] by simp,
            dropTrailing_concat_pos _ (by decide),
            dropTrailing_concat_of_neg _ (by decide)]
          simp
        have hguard : '=' ∈ (ck :: kt) ++ [' ', '='] ∧
            startsWithHash ((ck :: kt) ++ [' ', '=']) = false := by
          refine ⟨List.mem_append_right _ (by simp), ?_⟩
          rw [List.cons_append, startsWithHash_cons]
          rw [startsWithHash_cons] at hk0
          exact hk0
        have htake : List.takeWhile (fun c => !(c == '='))
            ((ck :: kt) ++ [' ', '=']) = (ck :: kt) ++ [' '] := by
          rw [List.takeWhile_append_of_pos hpk,
            List.takeWhile_cons_of_pos (by decide),
            List.takeWhile_cons_of_neg (by decide)]
        have hdrop : List.dropWhile (fun c => !(c == '='))
            ((ck :: kt) ++ [' ', '=']) = ['='] := by
          rw [List.dropWhile_append_of_pos hpk,
            List.dropWhile_cons_of_pos (by decide),
            List.dropWhile_cons_of_neg (by decide)]
        simp only [parse_line, hline]
        rw [if_pos hguard, htake, pyStrip_append_space hk2, hdrop]
        rfl
  · simp only [List.concat_eq_append] at hv ⊢
    cases k with
    | nil =>
        have hd : ¬ pyIsSpace d = true := pyStrip_last_not hv
        have hline : pyStrip ([] ++ ' ' :: '=' :: ' ' :: (v0 ++ [d])) =
            '=' :: ' ' :: (v0 ++ [d]) := by
          rw [List.nil_append, pyStrip_cons_space _ (by decide)]
          show pyStrip ('=' :: ((' ' :: v0) ++ [d])) = '=' :: ((' ' :: v0) ++ [d])
          exact pyStrip_eq_self_of_ends (by decide) hd
        have hguard : '=' ∈ '=' :: ' ' :: (v0 ++ [d]) ∧
            startsWithHash ('=' :: ' ' :: (v0 ++ [d])) = false :=
          ⟨List.mem_cons_self _ _, by rw [startsWithHash_cons]; decide⟩
        simp only [parse_line, hline]
        rw [if_pos hguard, List.takeWhile_cons_of_neg (by decide),
          List.dropWhile_cons_of_neg (by decide)]
        rw [show List.tail ('=' :: ' ' :: (v0 ++ [d])) = ' ' :: (v0 ++ [d]) from rfl,
          pyStrip_cons_space _ (by decide), hv]
        rfl
    | cons ck kt =>
        have hc : ¬ pyIsSpace ck = true := pyStrip_head_not hk2
        have hd : ¬ pyIsSpace d = true := pyStrip_last_not hv
        have hshape : (ck :: kt) ++ ' ' :: '=' :: ' ' :: (v0 ++ [d])
            = ck :: ((kt ++ (' ' :: '=' :: ' ' :: v0)) ++ [d]) := by simp
        have hline : pyStrip ((ck :: kt) ++ ' ' :: '=' :: ' ' :: (v0 ++ [d]))
            = (ck :: kt) ++ ' ' :: '=' :: ' ' :: (v0 ++ [d]) := by
          rw [hshape]
          exact pyStrip_eq_self_of_ends hc hd
        have hguard : '=' ∈ (ck :: kt) ++ ' ' :: '=' :: ' ' :: (v0 ++ [d]) ∧
            startsWithHash ((ck :: kt) ++ ' ' :: '=' :: ' ' :: (v0 ++ [d])) = false := by
          refine ⟨List.mem_append_right _ (by simp), ?_⟩
          rw [List.cons_append, startsWithHash_cons]
          rw [startsWithHash_cons] at hk0
          exact hk0
        have htake : List.takeWhile (fun c => !(c == '='))
            ((ck :: kt) ++ ' ' :: '=' :: ' ' :: (v0 ++ [d])) = (ck :: kt) ++ [' '] := by
          rw [List.takeWhile_append_of_pos hpk,
            List.takeWhile_cons_of_pos (by decide),
            List.takeWhile_cons_of_neg (by decide)]
        have hdrop : List.dropWhile (fun c => !(c == '='))
            ((ck :: kt) ++ ' ' :: '=' :: ' ' :: (v0 ++ [d]))
            = '=' :: ' ' :: (v0 ++ [d]) := by
          rw [List.dropWhile_append_of_pos hpk,
            List.dropWhile_cons_of_pos (by decide),
            List.dropWhile_cons_of_neg (by decide)]
        simp only [parse_line, hline]
        rw [if_pos hguard, htake, pyStrip_append_space hk2, hdrop]
        rw [show List.tail ('=' :: ' ' :: (v0 ++ [d])) = ' ' :: (v0 ++ [d]) from rfl,
          pyStrip_cons_space _ (by decide), hv]

/-- A line with no `=` in it is ignored (used for the trailing empty line). -/
theorem parse_line_empty (acc : Dict) : parse_line acc [] = acc := by
  simp [parse_line, pyStrip, dropTrailing]

/-! ### Order facts about the `sorted(config.items())` comparator -/

theorem charListLt_irrefl (x : Str) : charListLt x x = false := by
  induction x with
  | nil => rfl
  | cons a as ih => simp [charListLt, ih]

theorem charListLt_trans {x : Str} : ∀ {y z : Str}, charListLt x y = true →
    charListLt y z = true → charListLt x z = true := by
  induction x with
  | nil =>
      intro y z hxy hyz
      cases y with
      | nil => simp [charListLt] at hxy
      | cons b bs =>
          cases z with
          | nil => simp [charListLt] at hyz
          | cons c cs => simp [charListLt]
  | cons a as ih =>
      intro y z hxy hyz
      cases y with
      | nil => simp [charListLt] at hxy
      | cons b bs =>
          cases z with
          | nil => simp [charListLt] at hyz
          | cons c cs =>
              rw [charListLt] at hxy hyz ⊢
              by_cases hab : a < b
              · rw [if_pos hab] at hxy
                by_cases hbc : b < c
                · rw [if_pos (hab.trans hbc)]
                · by_cases hbc2 : b = c
                  · subst hbc2; rw [if_pos hab]
                  · rw [if_neg hbc, if_neg hbc2] at hyz; cases hyz
              · by_cases hab2 : a = b
                · subst hab2
                  rw [if_neg hab, if_pos rfl] at hxy
                  by_cases hbc : a < c
                  · rw [if_pos hbc]
                  · by_cases hbc2 : a = c
                    · subst hbc2
                      rw [if_neg hbc, if_pos rfl] at hyz ⊢
                      exact ih hxy hyz
                    · rw [if_neg hbc, if_neg hbc2] at hyz; cases hyz
                · rw [if_neg hab, if_neg hab2] at hxy; cases hxy

theorem charListLt_asymm {x : Str} : ∀ {y : Str}, charListLt x y = true →
    charListLt y x = false := by
  induction x with
  | nil =>
      intro y hxy
      cases y with
      | nil => simp [charListLt] at hxy
      | cons b bs => simp [charListLt]
  | cons a as ih =>
      intro y hxy
      cases y with
      | nil => simp [charListLt] at hxy
      | cons b bs =>
          rw [charListLt] at hxy ⊢
          by_cases hab : a < b
          · rw [if_neg (lt_asymm hab),
              if_neg (fun h : b = a => lt_irrefl a (by rw [h] at hab; exact hab))]
          · by_cases hab2 : a = b
            · subst hab2
              rw [if_neg hab, if_pos rfl] at hxy
              rw [if_neg hab, if_pos rfl]
              exact ih hxy
            · rw [if_neg hab, if_neg hab2] at hxy; cases hxy

theorem charListLt_connex {x : Str} : ∀ {y : Str}, charListLt x y = false →
    charListLt y x = false → x = y := by
  induction x with
  | nil =>
      intro y hxy _
      cases y with
      | nil => rfl
      | cons b bs => simp [charListLt] at hxy
  | cons a as ih =>
      intro y hxy hyx
      cases y with
      | nil => simp [charListLt] at hyx
      | cons b bs =>
          rw [charListLt] at hxy hyx
          by_cases hab : a < b
          · rw [if_pos hab] at hxy; cases hxy
          · by_cases hba : b < a
            · rw [if_pos hba] at hyx; cases hyx
            · have hab2 : a = b := le_antisymm (not_lt.1 hba) (not_lt.1 hab)
              subst hab2
              rw [if_neg hab, if_pos rfl] at hxy hyx
              rw [ih hxy hyx]

theorem charListLe_refl (x : Str) : charListLe x x = true := by
  simp [charListLe]

theorem charListLe_total (x y : Str) : (charListLe x y || charListLe y x) = true := by
  rw [charListLe, charListLe]
  cases hxy : charListLt x y
  · cases hyx : charListLt y x
    · rw [charListLt_connex hxy hyx]
      simp
    · simp
  · simp

theorem charListLe_trans {x y z : Str} (h1 : charListLe x y = true)
    (h2 : charListLe y z = true) : charListLe x z = true := by
  rw [charListLe] at h1 h2 ⊢
  rcases Bool.or_eq_true_iff.1 h1 with h1 | h1
  · rcases Bool.or_eq_true_iff.1 h2 with h2 | h2
    · simp [charListLt_trans h1 h2]
    · have : y = z := by simpa using h2
      subst this
      simp [h1]
  · have : x = y := by simpa using h1
    subst this
    exact h2

theorem charListLe_antisymm {x y : Str} (h1 : charListLe x y = true)
    (h2 : charListLe y x = true) : x = y := by
  rw [charListLe] at h1 h2
  rcases Bool.or_eq_true_iff.1 h1 with h1 | h1
  · rcases Bool.or_eq_true_iff.1 h2 with h2 | h2
    · rw [charListLt_asymm h1] at h2; cases h2
    · exact (by simpa using h2 : y = x).symm
  · simpa using h1

theorem pairLe_total (p q : Str × Str) : (pairLe p q || pairLe q p) = true := by
  rw [pairLe, pairLe]
  by_cases h : p.1 = q.1
  · rw [if_pos h, if_pos h.symm]
    exact charListLe_total _ _
  · rw [if_neg h, if_neg (Ne.symm h)]
    cases hpq : charListLt p.1 q.1
    · cases hqp : charListLt q.1 p.1
      · exact absurd (charListLt_connex hpq hqp) h
      · simp
    · simp

theorem pairLe_trans (a b c : Str × Str) (h1 : pairLe a b = true)
    (h2 : pairLe b c = true) : pairLe a c = true := by
  rw [pairLe] at h1 h2 ⊢
  by_cases hab : a.1 = b.1
  · by_cases hbc : b.1 = c.1
    · rw [if_pos hab] at h1
      rw [if_pos hbc] at h2
      rw [if_pos (hab.trans hbc)]
      exact charListLe_trans h1 h2
    · rw [if_neg hbc] at h2
      rw [if_neg (fun hac => hbc (hab.symm.trans hac)), hab]
      exact h2
  · rw [if_neg hab] at h1
    by_cases hbc : b.1 = c.1
    · rw [if_neg (fun hac => hab (hac.trans hbc.symm)), ← hbc]
      exact h1
    · rw [if_neg hbc] at h2
      by_cases hac : a.1 = c.1
      · have := charListLt_trans h1 h2
        rw [hac, charListLt_irrefl] at this
        cases this
      · rw [if_neg hac]
        exact charListLt_trans h1 h2

theorem pairLe_antisymm (a b : Str × Str) (h1 : pairLe a b = true)
    (h2 : pairLe b a = true) : a = b := by
  rw [pairLe] at h1 h2
  by_cases hab : a.1 = b.1
  · rw [if_pos hab] at h1
    rw [if_pos hab.symm] at h2
    have hv := charListLe_antisymm h1 h2
    exact Prod.ext hab hv
  · rw [if_neg hab] at h1
    rw [if_neg (Ne.symm hab)] at h2
    rw [charListLt_asymm h1] at h2
    cases h2

/-! ### The file written for a record, split back into lines -/

theorem splitLinesU_flatten (pairs : Dict)
    (h : ∀ q ∈ pairs, (∀ c ∈ q.1, ¬ c = '\n' ∧ ¬ c = '\r')
      ∧ (∀ c ∈ q.2, ¬ c = '\n' ∧ ¬ c = '\r')) :
    splitLinesU ((pairs.map (fun q => mkLine q.1 q.2)).flatten)
      = pairs.map (fun q => q.1 ++ ' ' :: '=' :: ' ' :: q.2) ++ [[]] := by
  induction pairs with
  | nil => simp [splitLinesU]
  | cons q ps ih =>
      obtain ⟨k, v⟩ := q
      have hq := h (k, v) (List.mem_cons_self _ _)
      have hbody : ∀ c ∈ k ++ ' ' :: '=' :: ' ' :: v, ¬ c = '\n' ∧ ¬ c = '\r' := by
        intro c hc
        rcases List.mem_append.1 hc with hc | hc
        · exact hq.1 c hc
        · rcases List.mem_cons.1 hc with rfl | hc
          · exact ⟨by decide, by decide⟩
          rcases List.mem_cons.1 hc with rfl | hc
          · exact ⟨by decide, by decide⟩
          rcases List.mem_cons.1 hc with rfl | hc
          · exact ⟨by decide, by decide⟩
          · exact hq.2 c hc
      rw [List.map_cons, List.flatten_cons,
        show mkLine k v ++ (List.map (fun q => mkLine q.1 q.2) ps).flatten
          = (k ++ ' ' :: '=' :: ' ' :: v)
            ++ '\n' :: (List.map (fun q => mkLine q.1 q.2) ps).flatten by
          simp [mkLine],
        splitLinesU_line _ _ hbody,
        ih (fun q hq2 => h q (List.mem_cons_of_mem _ hq2))]
      simp

theorem foldl_parse_line_bodies (pairs : Dict) :
    ∀ acc : Dict, (∀ q ∈ pairs, goodKey q.1 ∧ goodVal q.2) →
    (pairs.map (fun q => q.1 ++ ' ' :: '=' :: ' ' :: q.2)).foldl parse_line acc
      = pairs.foldl (fun a q => dinsert a q.1 q.2) acc := by
  induction pairs with
  | nil => intro acc _; rfl
  | cons q ps ih =>
      intro acc h
      obtain ⟨k, v⟩ := q
      have hq := h (k, v) (List.mem_cons_self _ _)
      rw [List.map_cons, List.foldl_cons, List.foldl_cons,
        parse_line_pair acc hq.1.1 hq.1.2.1 hq.1.2.2.2.2 hq.2.2.2,
        ih _ (fun q hq2 => h q (List.mem_cons_of_mem _ hq2))]

theorem dinsert_eq_append_of_not_mem {α : Type} {d : PyDict α} {k : Str} {v : α}
    (h : k ∉ dkeys d) : dinsert d k v = d ++ [(k, v)] := by
  induction d with
  | nil => rfl
  | cons q rest ih =>
      obtain ⟨k0, v0⟩ := q
      have hk0 : ¬ k0 = k := by
        intro hk0; subst hk0
        exact h (List.mem_cons_self _ _)
      rw [dinsert, if_neg hk0, List.cons_append,
        ih (fun hmem => h (List.mem_cons_of_mem _ hmem))]

theorem foldl_dinsert_eq_append {α : Type} (ps : PyDict α) :
    ∀ acc : PyDict α, (dkeys ps).Nodup → (∀ k ∈ dkeys ps, k ∉ dkeys acc) →
    ps.foldl (fun a q => dinsert a q.1 q.2) acc = acc ++ ps := by
  induction ps with
  | nil => intro acc _ _; simp
  | cons q ps ih =>
      intro acc hnd hdisj
      obtain ⟨k, v⟩ := q
      have hk : k ∉ dkeys acc := hdisj k (List.mem_cons_self _ _)
      obtain ⟨hk2, hnd2⟩ := List.nodup_cons.1 hnd
      rw [List.foldl_cons, dinsert_eq_append_of_not_mem hk,
        ih (acc ++ [(k, v)]) hnd2 (fun k2 hk2mem => by
          rw [dkeys, List.map_append]
          intro hmem
          rcases List.mem_append.1 hmem with hmem | hmem
          · exact hdisj k2 (List.mem_cons_of_mem _ hk2mem) hmem
          · simp at hmem
            subst hmem
            exact hk2 hk2mem)]
      simp

/-! ### `emit_pairs` is the record, re-ordered -/

theorem dkeys_vp_filterMap (c : Dict) (l : List Str) :
    dkeys (l.filterMap (fun k => (dget c k).map (fun v => (k, v))))
      = l.filter (fun k => (dget c k).isSome) := by
  induction l with
  | nil => rfl
  | cons k l ih =>
      rw [List.filterMap_cons, List.filter_cons]
      cases hg : dget c k with
      | none => simp [ih]
      | some v => simp [dkeys, ih] at *; exact ih

theorem contains_iff_mem {l : List Str} {a : Str} : l.contains a = true ↔ a ∈ l := by
  simp [List.contains]

theorem mem_vp_filterMap {c : Dict} {l : List Str} {q : Str × Str} :
    q ∈ l.filterMap (fun k => (dget c k).map (fun v => (k, v)))
      ↔ q.1 ∈ l ∧ dget c q.1 = some q.2 := by
  rw [List.mem_filterMap]
  constructor
  · rintro ⟨a, ha, hf⟩
    cases hg : dget c a with
    | none => rw [hg] at hf; cases hf
    | some v =>
        rw [hg] at hf
        simp only [Option.map_some'] at hf
        obtain rfl := Option.some_inj.1 hf
        exact ⟨ha, hg⟩
  · rintro ⟨h1, h2⟩
    exact ⟨q.1, h1, by rw [h2]; simp⟩

theorem emit_pairs_perm (c : Dict) (hnd : (dkeys c).Nodup) :
    List.Perm (emit_pairs c) c := by
  have hndpairs : c.Nodup := List.Nodup.of_map _ hnd
  have hnd1 : (viewport_order.filterMap
      (fun k => (dget c k).map (fun v => (k, v)))).Nodup := by
    apply List.Nodup.of_map Prod.fst
    rw [show List.map Prod.fst (viewport_order.filterMap
        (fun k => (dget c k).map (fun v => (k, v))))
      = dkeys (viewport_order.filterMap
        (fun k => (dget c k).map (fun v => (k, v)))) from rfl,
      dkeys_vp_filterMap]
    exact (List.filter_sublist _).nodup (by decide)
  have hvp : List.Perm
      (viewport_order.filterMap (fun k => (dget c k).map (fun v => (k, v))))
      (c.filter (fun q => viewport_order.contains q.1)) := by
    apply (List.perm_ext_iff_of_nodup hnd1 (hndpairs.filter _)).2
    intro q
    rw [mem_vp_filterMap, List.mem_filter, contains_iff_mem]
    constructor
    · rintro ⟨h1, h2⟩
      exact ⟨mem_of_dget_eq_some h2, h1⟩
    · rintro ⟨h1, h2⟩
      refine ⟨h2, dget_eq_some_of_nodup hnd ?_⟩
      simpa using h1
  exact (List.Perm.append_left _ (List.mergeSort_perm _ _)).trans
    ((List.Perm.append_right _ hvp).trans (List.filter_append_perm _ _))

theorem nodup_dkeys_emit_pairs (c : Dict) (hnd : (dkeys c).Nodup) :
    (dkeys (emit_pairs c)).Nodup :=
  (((emit_pairs_perm c hnd).map Prod.fst).nodup_iff).2 hnd

theorem good_emit_pairs (c : Dict) (hnd : (dkeys c).Nodup)
    (hg : ∀ q ∈ c, goodKey q.1 ∧ goodVal q.2) :
    ∀ q ∈ emit_pairs c, goodKey q.1 ∧ goodVal q.2 :=
  fun q hq => hg q ((emit_pairs_perm c hnd).subset hq)

/-- Reading back the file written for a well-formed record yields exactly
the emitted pair list. -/
theorem read_write_eq_emit (c : Dict) (hgood : goodDict c) :
    read_config_string (write_config_file c) = emit_pairs c := by
  obtain ⟨hg, hnd⟩ := hgood
  have hge := good_emit_pairs c hnd hg
  have hnl : ∀ q ∈ emit_pairs c, (∀ ch ∈ q.1, ¬ ch = '\n' ∧ ¬ ch = '\r')
      ∧ (∀ ch ∈ q.2, ¬ ch = '\n' ∧ ¬ ch = '\r') := by
    intro q hq
    obtain ⟨hk, hv⟩ := hge q hq
    exact ⟨fun ch hch => ⟨fun he => hk.2.2.1 (he ▸ hch), fun he => hk.2.2.2.1 (he ▸ hch)⟩,
      fun ch hch => ⟨fun he => hv.1 (he ▸ hch), fun he => hv.2.1 (he ▸ hch)⟩⟩
  rw [read_config_string, write_config_file, splitLinesU_flatten _ hnl,
    List.foldl_append, List.foldl_cons, List.foldl_nil, parse_line_empty,
    foldl_parse_line_bodies _ [] hge,
    foldl_dinsert_eq_append _ [] (nodup_dkeys_emit_pairs c hnd)
      (by intro k _ hk; simp [dkeys] at hk)]
  simp

theorem dget_eq_of_perm {c1 c2 : Dict} (hp : List.Perm c1 c2)
    (h1 : (dkeys c1).Nodup) (k : Str) : dget c1 k = dget c2 k := by
  cases hg : dget c2 k with
  | some v => exact dget_eq_some_of_nodup h1 (hp.mem_iff.2 (mem_of_dget_eq_some hg))
  | none =>
      rw [dget_eq_none_iff] at hg ⊢
      intro hmem
      exact hg ((hp.map Prod.fst).mem_iff.1 hmem)

/-- The write/read round trip preserves the record as a dictionary. -/
theorem dget_read_write (c : Dict) (hgood : goodDict c) (k : Str) :
    dget (read_config_string (write_config_file c)) k = dget c k := by
  rw [read_write_eq_emit c hgood]
  exact dget_eq_of_perm (emit_pairs_perm c hgood.2)
    (nodup_dkeys_emit_pairs c hgood.2) k

/-! ### The reader only produces well-formed records -/

theorem goodDict_nil : goodDict [] :=
  ⟨fun q hq => absurd hq (List.not_mem_nil q), by simp [dkeys]⟩

theorem goodDict_dinsert {d : Dict} {k v : Str} (hd : goodDict d)
    (hk : goodKey k) (hv : goodVal v) : goodDict (dinsert d k v) := by
  refine ⟨fun q hq => ?_, nodup_dkeys_dinsert _ _ hd.2⟩
  rcases mem_dinsert hq with hq | rfl
  · exact hd.1 q hq
  · exact ⟨hk, hv⟩

theorem goodDict_derase {d : Dict} (k : Str) (hd : goodDict d) :
    goodDict (derase d k) :=
  ⟨fun q hq => hd.1 q (mem_derase hq), nodup_dkeys_derase _ hd.2⟩

theorem parse_line_good (acc : Dict) (raw : Str)
    (hraw : ∀ c ∈ raw, ¬ c = '\n' ∧ ¬ c = '\r')
    (hacc : goodDict acc) : goodDict (parse_line acc raw) := by
  simp only [parse_line]
  by_cases hif : '=' ∈ pyStrip raw ∧ startsWithHash (pyStrip raw) = false
  · rw [if_pos hif]
    have hstripline : pyStrip (pyStrip raw) = pyStrip raw := pyStrip_idem raw
    have hsubline : ∀ a, a ∈ pyStrip raw → a ∈ raw := fun a => mem_pyStrip
    apply goodDict_dinsert hacc
    · -- the inserted key is good
      refine ⟨?_, ?_, ?_, ?_, pyStrip_idem _⟩
      · -- does not start with '#'
        rcases hlshape : pyStrip raw with _ | ⟨c0, t⟩
        · rw [hlshape] at hif
          cases hif.1
        · have hc0 : ¬ pyIsSpace c0 = true := by
            rw [hlshape] at hstripline
            exact pyStrip_head_not hstripline
          by_cases hceq : (!(c0 == '=')) = true
          · have htw : List.takeWhile (fun c => !(c == '=')) (c0 :: t)
                = c0 :: List.takeWhile (fun c => !(c == '=')) t :=
              List.takeWhile_cons_of_pos hceq
            rw [htw, pyStrip, List.dropWhile_cons_of_neg hc0,
              dropTrailing_cons_of_neg _ hc0, startsWithHash_cons]
            have hhash := hif.2
            rw [hlshape, startsWithHash_cons] at hhash
            exact hhash
          · have htw : List.takeWhile (fun c => !(c == '=')) (c0 :: t) = [] :=
              List.takeWhile_cons_of_neg hceq
            rw [htw]
            rfl
      · intro hm
        have := List.mem_takeWhile_imp (mem_pyStrip hm)
        simp at this
      · intro hm
        have h1 := (List.takeWhile_sublist _).subset (mem_pyStrip hm)
        exact (hraw _ (hsubline _ h1)).1 rfl
      · intro hm
        have h1 := (List.takeWhile_sublist _).subset (mem_pyStrip hm)
        exact (hraw _ (hsubline _ h1)).2 rfl
    · -- the inserted value is good
      refine ⟨?_, ?_, pyStrip_idem _⟩
      · intro hm
        have h1 := (List.tail_sublist _).subset (mem_pyStrip hm)
        have h2 := (List.dropWhile_sublist _).subset h1
        exact (hraw _ (hsubline _ h2)).1 rfl
      · intro hm
        have h1 := (List.tail_sublist _).subset (mem_pyStrip hm)
        have h2 := (List.dropWhile_sublist _).subset h1
        exact (hraw _ (hsubline _ h2)).2 rfl
  · rw [if_neg hif]
    exact hacc

theorem foldl_parse_line_good (lines : List Str) :
    ∀ acc : Dict, (∀ l ∈ lines, ∀ c ∈ l, ¬ c = '\n' ∧ ¬ c = '\r') →
    goodDict acc → goodDict (lines.foldl parse_line acc) := by
  induction lines with
  | nil => intro acc _ h; exact h
  | cons l ls ih =>
      intro acc hls hacc
      rw [List.foldl_cons]
      exact ih _ (fun l2 h2 => hls l2 (List.mem_cons_of_mem _ h2))
        (parse_line_good acc l (hls l (List.mem_cons_self _ _)) hacc)

theorem read_config_string_good (content : Str) :
    goodDict (read_config_string content) :=
  foldl_parse_line_good _ [] (fun l hl => splitLinesU_no_newline l hl) goodDict_nil

theorem read_config_file_good (fs : Dict) (path : Str) :
    goodDict (read_config_file fs path) := by
  rw [read_config_file]
  cases dget fs path with
  | some content => exact read_config_string_good content
  | none => exact goodDict_nil

/-! ### Serialization depends only on the record as a dictionary -/

theorem write_config_file_congr (c1 c2 : Dict) (h1 : (dkeys c1).Nodup)
    (h2 : (dkeys c2).Nodup) (h : ∀ k, dget c1 k = dget c2 k) :
    write_config_file c1 = write_config_file c2 := by
  suffices hs : emit_pairs c1 = emit_pairs c2 by
    rw [write_config_file, write_config_file, hs]
  have hmem : ∀ q : Str × Str, q ∈ c1 ↔ q ∈ c2 := by
    intro q
    constructor
    · intro hm
      have hg1 := dget_eq_some_of_nodup h1 (show (q.1, q.2) ∈ c1 by simpa using hm)
      have hg2 := mem_of_dget_eq_some ((h q.1) ▸ hg1)
      simpa using hg2
    · intro hm
      have hg1 := dget_eq_some_of_nodup h2 (show (q.1, q.2) ∈ c2 by simpa using hm)
      have hg2 := mem_of_dget_eq_some ((h q.1).symm ▸ hg1)
      simpa using hg2
  rw [emit_pairs, emit_pairs]
  have hf : (fun k => (dget c1 k).map (fun v => (k, v)))
      = fun k => (dget c2 k).map (fun v => (k, v)) :=
    funext (fun k => by rw [h k])
  rw [hf]
  congr 1
  have hperm : List.Perm (c1.filter (fun q => !(viewport_order.contains q.1)))
      (c2.filter (fun q => !(viewport_order.contains q.1))) := by
    apply (List.perm_ext_iff_of_nodup ((List.Nodup.of_map _ h1).filter _)
      ((List.Nodup.of_map _ h2).filter _)).2
    intro q
    rw [List.mem_filter, List.mem_filter]
    exact and_congr_left (fun _ => hmem q)
  haveI : IsAntisymm (Str × Str) (fun a b => pairLe a b = true) := ⟨pairLe_antisymm⟩
  exact List.eq_of_perm_of_sorted
    (((List.mergeSort_perm _ _).trans hperm).trans (List.mergeSort_perm _ _).symm)
    (List.sorted_mergeSort pairLe_trans pairLe_total _)
    (List.sorted_mergeSort pairLe_trans pairLe_total _)

/-! ### Decimal renderings are well-formed values -/

theorem digit_not_special {d : Nat} (hd : d < 10) :
    ¬ pyIsSpace (Char.ofNat (48 + d)) = true ∧ ¬ Char.ofNat (48 + d) = '\n'
      ∧ ¬ Char.ofNat (48 + d) = '\r' := by
  interval_cases d <;> exact ⟨by decide, by decide, by decide⟩

theorem natStrGo_chars (fuel : Nat) :
    ∀ n, ∀ c ∈ natStrGo fuel n, ∃ d : Nat, d < 10 ∧ c = Char.ofNat (48 + d) := by
  induction fuel with
  | zero => intro n c hc; cases hc
  | succ f ih =>
      intro n c hc
      rw [natStrGo] at hc
      by_cases h : n < 10
      · rw [if_pos h] at hc
        exact ⟨n, h, List.mem_singleton.1 hc⟩
      · rw [if_neg h] at hc
        rcases List.mem_append.1 hc with hc | hc
        · exact ih _ c hc
        · exact ⟨n % 10, Nat.mod_lt _ (by omega), List.mem_singleton.1 hc⟩

theorem natStr_chars (n : Nat) :
    ∀ c ∈ natStr n, ∃ d : Nat, d < 10 ∧ c = Char.ofNat (48 + d) :=
  natStrGo_chars _ _

theorem intStr_chars (n : Int) :
    ∀ c ∈ intStr n, ¬ c = '\n' ∧ ¬ c = '\r' := by
  intro c hc
  rw [intStr] at hc
  by_cases hneg : n < 0
  · rw [if_pos hneg] at hc
    rcases List.mem_cons.1 hc with rfl | hc
    · exact ⟨by decide, by decide⟩
    · obtain ⟨d, hd, rfl⟩ := natStr_chars _ c hc
      exact (digit_not_special hd).2
  · rw [if_neg hneg] at hc
    obtain ⟨d, hd, rfl⟩ := natStr_chars _ c hc
    exact (digit_not_special hd).2

theorem goodVal_quoteVal {s : Str} (h : ∀ c ∈ s, ¬ c = '\n' ∧ ¬ c = '\r') :
    goodVal (quoteVal s) := by
  refine ⟨?_, ?_, pyStrip_eq_self_of_ends (by decide) (by decide)⟩
  · intro hm
    rw [quoteVal] at hm
    rcases List.mem_cons.1 hm with hq | hm
    · exact absurd hq (by decide)
    · rcases List.mem_append.1 hm with hm | hm
      · exact (h _ hm).1 rfl
      · exact absurd (List.mem_singleton.1 hm) (by decide)
  · intro hm
    rw [quoteVal] at hm
    rcases List.mem_cons.1 hm with hq | hm
    · exact absurd hq (by decide)
    · rcases List.mem_append.1 hm with hm | hm
      · exact (h _ hm).2 rfl
      · exact absurd (List.mem_singleton.1 hm) (by decide)

theorem goodVal_quote_intStr (n : Int) : goodVal (quoteVal (intStr n)) :=
  goodVal_quoteVal (intStr_chars n)

/-! ### Record-level facts about `apply_viewport` -/

theorem goodDict_apply_viewport {c : Dict} (hg : goodDict c) (w h : Int)
    (x y : Option Int) : goodDict (apply_viewport c w h x y) :=
  goodDict_dinsert (goodDict_dinsert (goodDict_dinsert (goodDict_dinsert
    (goodDict_dinsert hg (by decide) (goodVal_quote_intStr w)) (by decide)
    (goodVal_quote_intStr h)) (by decide) (goodVal_quote_intStr (x.getD 0)))
    (by decide) (goodVal_quote_intStr (y.getD 0))) (by decide)
    (by decide)

theorem dget_apply_viewport_width (c : Dict) (w h : Int) (x y : Option Int) :
    dget (apply_viewport c w h x y) (chars "custom_viewport_width")
      = some (quoteVal (intStr w)) := by
  rw [apply_viewport, dget_dinsert_ne _ _ _ _ (by decide),
    dget_dinsert_ne _ _ _ _ (by decide), dget_dinsert_ne _ _ _ _ (by decide),
    dget_dinsert_ne _ _ _ _ (by decide), dget_dinsert_self]

theorem dget_apply_viewport_height (c : Dict) (w h : Int) (x y : Option Int) :
    dget (apply_viewport c w h x y) (chars "custom_viewport_height")
      = some (quoteVal (intStr h)) := by
  rw [apply_viewport, dget_dinsert_ne _ _ _ _ (by decide),
    dget_dinsert_ne _ _ _ _ (by decide), dget_dinsert_ne _ _ _ _ (by decide),
    dget_dinsert_self]

theorem dget_apply_viewport_x (c : Dict) (w h : Int) (x y : Option Int) :
    dget (apply_viewport c w h x y) (chars "custom_viewport_x")
      = some (quoteVal (intStr (x.getD 0))) := by
  rw [apply_viewport, dget_dinsert_ne _ _ _ _ (by decide),
    dget_dinsert_ne _ _ _ _ (by decide), dget_dinsert_self]

theorem dget_apply_viewport_y (c : Dict) (w h : Int) (x y : Option Int) :
    dget (apply_viewport c w h x y) (chars "custom_viewport_y")
      = some (quoteVal (intStr (y.getD 0))) := by
  rw [apply_viewport, dget_dinsert_ne _ _ _ _ (by decide), dget_dinsert_self]

theorem dget_apply_viewport_ari (c : Dict) (w h : Int) (x y : Option Int) :
    dget (apply_viewport c w h x y) (chars "aspect_ratio_index")
      = some (quoteVal (chars "23")) := by
  rw [apply_viewport, dget_dinsert_self]

theorem dget_apply_viewport_other (c : Dict) (w h : Int) (x y : Option Int)
    (k : Str) (hk : k ∉ viewport_keys) :
    dget (apply_viewport c w h x y) k = dget c k := by
  have h1 : k ≠ chars "custom_viewport_width" := fun he => hk (by rw [he]; decide)
  have h2 : k ≠ chars "custom_viewport_height" := fun he => hk (by rw [he]; decide)
  have h3 : k ≠ chars "custom_viewport_x" := fun he => hk (by rw [he]; decide)
  have h4 : k ≠ chars "custom_viewport_y" := fun he => hk (by rw [he]; decide)
  have h5 : k ≠ chars "aspect_ratio_index" := fun he => hk (by rw [he]; decide)
  rw [apply_viewport, dget_dinsert_ne _ _ _ _ h5, dget_dinsert_ne _ _ _ _ h4,
    dget_dinsert_ne _ _ _ _ h3, dget_dinsert_ne _ _ _ _ h2,
    dget_dinsert_ne _ _ _ _ h1]

/-! ### Record-level facts about `remove_viewport` -/

theorem nodup_dkeys_filter {c : Dict} (p : Str × Str → Bool)
    (hnd : (dkeys c).Nodup) : (dkeys (c.filter p)).Nodup :=
  ((List.filter_sublist c).map Prod.fst).nodup hnd

theorem remove_viewport_eq_filter {c : Dict} (hnd : (dkeys c).Nodup) :
    remove_viewport c = c.filter (fun q => !(decide (q.1 ∈ viewport_keys))) := by
  simp only [remove_viewport, viewport_keys, List.foldl_cons, List.foldl_nil]
  rw [derase_eq_filter _ hnd,
    derase_eq_filter _ (nodup_dkeys_filter _ hnd),
    derase_eq_filter _ (nodup_dkeys_filter _ (nodup_dkeys_filter _ hnd)),
    derase_eq_filter _ (nodup_dkeys_filter _ (nodup_dkeys_filter _
      (nodup_dkeys_filter _ hnd))),
    derase_eq_filter _ (nodup_dkeys_filter _ (nodup_dkeys_filter _
      (nodup_dkeys_filter _ (nodup_dkeys_filter _ hnd)))),
    List.filter_filter, List.filter_filter, List.filter_filter,
    List.filter_filter]
  apply List.filter_congr
  intro q _
  by_cases hm : q.1 ∈ [chars "custom_viewport_width", chars "custom_viewport_height",
      chars "custom_viewport_x", chars "custom_viewport_y", chars "aspect_ratio_index"]
  · simp only [List.mem_cons, List.not_mem_nil, or_false] at hm
    rcases hm with hm | hm | hm | hm | hm <;> rw [hm] <;> decide
  · simp only [List.mem_cons, List.not_mem_nil, or_false, not_or] at hm
    obtain ⟨hm1, hm2, hm3, hm4, hm5⟩ := hm
    simp [hm1, hm2, hm3, hm4, hm5]

theorem dget_filter_eq_none {α : Type} {c : PyDict α} {p : Str × α → Bool} {k : Str}
    (h : ∀ v, p (k, v) = false) : dget (c.filter p) k = none := by
  induction c with
  | nil => rfl
  | cons q rest ih =>
      obtain ⟨k0, v0⟩ := q
      rw [List.filter_cons]
      by_cases hp : p (k0, v0) = true
      · rw [if_pos hp, dget]
        by_cases h0 : k0 = k
        · subst h0
          rw [h v0] at hp
          cases hp
        · rw [if_neg h0]
          exact ih
      · rw [if_neg hp]
        exact ih

theorem dget_filter_eq_of_true {α : Type} {c : PyDict α} {p : Str × α → Bool} {k : Str}
    (h : ∀ v, p (k, v) = true) : dget (c.filter p) k = dget c k := by
  induction c with
  | nil => rfl
  | cons q rest ih =>
      obtain ⟨k0, v0⟩ := q
      rw [List.filter_cons]
      by_cases hp : p (k0, v0) = true
      · rw [if_pos hp, dget, dget]
        by_cases h0 : k0 = k <;> simp [h0, ih]
      · have h0 : ¬ k0 = k := by
          intro h0
          subst h0
          rw [h v0] at hp
          exact hp rfl
        rw [if_neg hp, dget, if_neg h0]
        exact ih

theorem dget_remove_viewport_other {c : Dict} (hnd : (dkeys c).Nodup)
    {k : Str} (hk : k ∉ viewport_keys) :
    dget (remove_viewport c) k = dget c k := by
  rw [remove_viewport_eq_filter hnd]
  exact dget_filter_eq_of_true (fun v => by simp [hk])

theorem dget_remove_viewport_vp {c : Dict} (hnd : (dkeys c).Nodup)
    {k : Str} (hk : k ∈ viewport_keys) :
    dget (remove_viewport c) k = none := by
  rw [remove_viewport_eq_filter hnd]
  exact dget_filter_eq_none (fun v => by simp [hk])

theorem remove_viewport_eq_nil {c : Dict} (hnd : (dkeys c).Nodup)
    (h : ∀ q ∈ c, q.1 ∈ viewport_keys) : remove_viewport c = [] := by
  rw [remove_viewport_eq_filter hnd, List.filter_eq_nil_iff]
  intro q hq
  simp [h q hq]

theorem goodDict_remove_viewport {c : Dict} (hg : goodDict c) :
    goodDict (remove_viewport c) := by
  rw [remove_viewport_eq_filter hg.2]
  exact ⟨fun q hq => hg.1 q (List.mem_of_mem_filter hq),
    nodup_dkeys_filter _ hg.2⟩

theorem dget_derase_self {α : Type} {d : PyDict α} {k : Str}
    (hd : (dkeys d).Nodup) : dget (derase d k) k = none := by
  rw [derase_eq_filter k hd]
  exact dget_filter_eq_none (fun v => by simp)

theorem read_config_string_nil : read_config_string [] = [] := rfl

theorem emit_pairs_nil : emit_pairs [] = [] := by
  simp [emit_pairs, viewport_order, List.filterMap_cons, dget]

theorem write_config_file_nil : write_config_file [] = [] := by
  rw [write_config_file, emit_pairs_nil]
  rfl

theorem read_config_file_dinsert_self (fs : Dict) (path s : Str) :
    read_config_file (dinsert fs path s) path = read_config_string s := by
  rw [read_config_file, dget_dinsert_self]

theorem read_config_file_derase_self (fs : Dict) (path : Str)
    (h : (dkeys fs).Nodup) :
    read_config_file (derase fs path) path = [] := by
  rw [read_config_file, dget_derase_self h]

/-! ### File-level facts about `update_rom_config` -/

theorem dget_update_rom_config_self (fs : Dict) (rn : Str) (w h : Int)
    (x y : Option Int) :
    dget (update_rom_config fs rn w h x y) (cfg_path rn)
      = some (write_config_file
          (apply_viewport (read_config_file fs (cfg_path rn)) w h x y)) := by
  simp only [update_rom_config]
  exact dget_dinsert_self _ _ _

theorem dget_update_rom_config_other (fs : Dict) (rn : Str) (w h : Int)
    (x y : Option Int) (path' : Str) (hne : path' ≠ cfg_path rn) :
    dget (update_rom_config fs rn w h x y) path' = dget fs path' := by
  simp only [update_rom_config]
  exact dget_dinsert_ne _ _ _ _ hne

theorem read_update_rom_config (fs : Dict) (rn : Str) (w h : Int)
    (x y : Option Int) :
    read_config_file (update_rom_config fs rn w h x y) (cfg_path rn)
      = read_config_string (write_config_file
          (apply_viewport (read_config_file fs (cfg_path rn)) w h x y)) := by
  rw [read_config_file, dget_update_rom_config_self]

/-- Reading the target back after `update_rom_config` sees exactly the
updated record, as a dictionary. -/
theorem dget_read_update (fs : Dict) (rn : Str) (w h : Int) (x y : Option Int)
    (k : Str) :
    dget (read_config_file (update_rom_config fs rn w h x y) (cfg_path rn)) k
      = dget (apply_viewport (read_config_file fs (cfg_path rn)) w h x y) k := by
  rw [read_update_rom_config]
  exact dget_read_write _
    (goodDict_apply_viewport (read_config_file_good fs _) _ _ _ _) k

theorem update_rom_config_idem_content (fs : Dict) (rn : Str) (w h : Int)
    (x y : Option Int) :
    dget (update_rom_config (update_rom_config fs rn w h x y) rn w h x y)
        (cfg_path rn)
      = dget (update_rom_config fs rn w h x y) (cfg_path rn) := by
  have hg0 := read_config_file_good fs (cfg_path rn)
  have hg1 : goodDict (apply_viewport (read_config_file fs (cfg_path rn)) w h x y) :=
    goodDict_apply_viewport hg0 w h x y
  have hg2 : goodDict (read_config_string (write_config_file
      (apply_viewport (read_config_file fs (cfg_path rn)) w h x y))) :=
    read_config_string_good _
  rw [dget_update_rom_config_self, dget_update_rom_config_self,
    read_update_rom_config]
  rw [Option.some_inj]
  apply write_config_file_congr _ _ (goodDict_apply_viewport hg2 w h x y).2 hg1.2
  intro k
  by_cases hk : k ∈ viewport_keys
  · simp only [viewport_keys, List.mem_cons, List.not_mem_nil, or_false] at hk
    rcases hk with rfl | rfl | rfl | rfl | rfl
    · rw [dget_apply_viewport_width, dget_apply_viewport_width]
    · rw [dget_apply_viewport_height, dget_apply_viewport_height]
    · rw [dget_apply_viewport_x, dget_apply_viewport_x]
    · rw [dget_apply_viewport_y, dget_apply_viewport_y]
    · rw [dget_apply_viewport_ari, dget_apply_viewport_ari]
  · rw [dget_apply_viewport_other _ _ _ _ _ _ hk,
      dget_read_write _ hg1 k, dget_apply_viewport_other _ _ _ _ _ _ hk]

/-! ### Facts about `remove_rom_config` -/

theorem remove_rom_config_missing (fs : Dict) (rn : Str) (b : Bool)
    (h : dget fs (cfg_path rn) = none) :
    remove_rom_config fs rn b = ⟨fs, false, false,
      chars "No config file found for " ++ rn ++ chars ".zip"⟩ := by
  simp only [remove_rom_config, h]
  rfl

theorem remove_rom_config_no_overrides (fs : Dict) (rn : Str) (b : Bool)
    (hex : (dget fs (cfg_path rn)).isSome = true)
    (hnone : ∀ k ∈ viewport_keys,
      dget (read_config_file fs (cfg_path rn)) k = none) :
    remove_rom_config fs rn b = ⟨fs, false, false,
      chars "No viewport overrides found in config for " ++ rn ++ chars ".zip"⟩ := by
  have hany : (viewport_keys.any (fun k =>
      (dget (read_config_file fs (cfg_path rn)) k).isSome)) = false := by
    rw [List.any_eq_false]
    intro k hk
    rw [hnone k hk]
    simp
  simp only [remove_rom_config]
  rw [if_pos hex, if_neg (by rw [hany]; simp)]

theorem remove_rom_config_only_vp (fs : Dict) (rn : Str)
    (hex : (dget fs (cfg_path rn)).isSome = true)
    (hkeys : ∀ q ∈ read_config_file fs (cfg_path rn), q.1 ∈ viewport_keys)
    (hne : read_config_file fs (cfg_path rn) ≠ []) (b : Bool) :
    remove_rom_config fs rn b =
      if b then
        ⟨derase fs (cfg_path rn), true, true,
          chars "Removed config file for " ++ rn
            ++ chars ".zip (was empty after removing overrides)"⟩
      else
        ⟨dinsert fs (cfg_path rn) [], true, true,
          chars "Config for " ++ rn
            ++ chars ".zip is now empty after removing overrides"⟩ := by
  have hg0 := read_config_file_good fs (cfg_path rn)
  have hnil : remove_viewport (read_config_file fs (cfg_path rn)) = [] :=
    remove_viewport_eq_nil hg0.2 hkeys
  have hany : (viewport_keys.any (fun k =>
      (dget (read_config_file fs (cfg_path rn)) k).isSome)) = true := by
    rw [List.any_eq_true]
    rcases hq : read_config_file fs (cfg_path rn) with _ | ⟨q, rest⟩
    · exact absurd hq hne
    · obtain ⟨k1, v1⟩ := q
      refine ⟨k1, hkeys (k1, v1) (by rw [hq]; exact List.mem_cons_self _ _), ?_⟩
      exact dget_isSome_of_mem (List.mem_cons_self _ _)
  simp only [remove_rom_config]
  rw [if_pos hex, if_pos (by rw [hany])]
  cases b with
  | true =>
      rw [if_pos (by rw [hnil]; rfl)]
      rfl
  | false =>
      rw [if_neg (by rw [hnil]; simp), if_pos (by rw [hnil]; rfl), hnil,
        write_config_file_nil]
      rfl

/-- Keys outside the five viewport keys survive `remove_rom_config` with
their values unchanged, whatever branch is taken. -/
theorem dget_read_remove_rom_config (fs : Dict) (rn : Str) (b : Bool)
    (k : Str) (hfs : (dkeys fs).Nodup) (hk : k ∉ viewport_keys) :
    dget (read_config_file (remove_rom_config fs rn b).fs (cfg_path rn)) k
      = dget (read_config_file fs (cfg_path rn)) k := by
  have hg0 := read_config_file_good fs (cfg_path rn)
  by_cases hex : (dget fs (cfg_path rn)).isSome = true
  · by_cases hany : (viewport_keys.any (fun kk =>
        (dget (read_config_file fs (cfg_path rn)) kk).isSome)) = true
    · simp only [remove_rom_config]
      rw [if_pos hex, if_pos (by rw [hany])]
      by_cases he : (remove_viewport (read_config_file fs (cfg_path rn))).isEmpty = true
      · have hnilc : remove_viewport (read_config_file fs (cfg_path rn)) = [] :=
          List.isEmpty_iff.1 he
        have hdg : dget (read_config_file fs (cfg_path rn)) k = none := by
          rw [← dget_remove_viewport_other hg0.2 hk, hnilc]
          rfl
        cases b with
        | true =>
            rw [if_pos (by rw [he]; rfl)]
            rw [show (RemoveResult.mk (derase fs (cfg_path rn)) true true
              (chars "Removed config file for " ++ rn
                ++ chars ".zip (was empty after removing overrides)")).fs
              = derase fs (cfg_path rn) from rfl]
            rw [read_config_file_derase_self fs _ hfs, hdg]
            rfl
        | false =>
            rw [if_neg (by rw [he]; simp), if_pos (by rw [he])]
            rw [show (RemoveResult.mk (dinsert fs (cfg_path rn)
                (write_config_file (remove_viewport
                  (read_config_file fs (cfg_path rn))))) true true
              (chars "Config for " ++ rn
                ++ chars ".zip is now empty after removing overrides")).fs
              = dinsert fs (cfg_path rn) (write_config_file (remove_viewport
                  (read_config_file fs (cfg_path rn)))) from rfl]
            rw [read_config_file_dinsert_self, hnilc, write_config_file_nil,
              read_config_string_nil, hdg]
            rfl
      · rw [if_neg (by rw [Bool.not_eq_true] at he; rw [he]; simp), if_neg he]
        rw [show (RemoveResult.mk (dinsert fs (cfg_path rn)
            (write_config_file (remove_viewport
              (read_config_file fs (cfg_path rn))))) true false
          (chars "Removed viewport overrides from " ++ rn ++ chars ".zip config")).fs
          = dinsert fs (cfg_path rn) (write_config_file (remove_viewport
              (read_config_file fs (cfg_path rn)))) from rfl]
        rw [read_config_file_dinsert_self,
          dget_read_write _ (goodDict_remove_viewport hg0) k,
          dget_remove_viewport_other hg0.2 hk]
    · simp only [remove_rom_config]
      rw [if_pos hex, if_neg hany]
  · simp only [remove_rom_config]
    rw [if_neg hex]

/-! ### Facts about `process_roms` -/

theorem cfg_path_inj {r r' : Str} (h : cfg_path r = cfg_path r') : r = r' :=
  (List.append_left_inj _).1 h

theorem read_config_file_congr {fs1 fs2 : Dict} {path : Str}
    (h : dget fs1 path = dget fs2 path) :
    read_config_file fs1 path = read_config_file fs2 path := by
  rw [read_config_file, read_config_file, h]

theorem process_roms_fold (m : Manager) (roms : List Str) :
    ∀ (fs : Dict) (n s : Nat),
      (roms.foldl (fun acc rom_name =>
        match dget m.game_resolutions rom_name with
        | some wh =>
            (update_rom_config acc.1 rom_name (m.override_width.getD wh.1)
              (m.override_height.getD wh.2) m.override_x m.override_y,
             acc.2.1 + 1, acc.2.2)
        | none => (acc.1, acc.2.1, acc.2.2 + 1)) (fs, n, s)).1
      = roms.foldl (fun fsa rom_name =>
          match dget m.game_resolutions rom_name with
          | some wh =>
              update_rom_config fsa rom_name (m.override_width.getD wh.1)
                (m.override_height.getD wh.2) m.override_x m.override_y
          | none => fsa) fs := by
  induction roms with
  | nil => intro fs n s; rfl
  | cons r rs ih =>
      intro fs n s
      rw [List.foldl_cons, List.foldl_cons]
      cases dget m.game_resolutions r with
      | some wh => exact ih _ _ _
      | none => exact ih _ _ _

theorem process_roms_untouched (m : Manager) (rs : List Str) (r : Str)
    (hr : r ∉ rs) :
    ∀ fs : Dict,
      dget (rs.foldl (fun fsa rom_name =>
          match dget m.game_resolutions rom_name with
          | some wh =>
              update_rom_config fsa rom_name (m.override_width.getD wh.1)
                (m.override_height.getD wh.2) m.override_x m.override_y
          | none => fsa) fs) (cfg_path r)
        = dget fs (cfg_path r) := by
  induction rs with
  | nil => intro fs; rfl
  | cons a rs ih =>
      intro fs
      have hra : r ≠ a := fun he => hr (he ▸ List.mem_cons_self _ _)
      have hrs : r ∉ rs := fun hm => hr (List.mem_cons_of_mem _ hm)
      rw [List.foldl_cons]
      cases dget m.game_resolutions a with
      | some wh =>
          rw [ih hrs]
          exact dget_update_rom_config_other _ _ _ _ _ _ _
            (fun he => hra (cfg_path_inj he))
      | none => exact ih hrs _

/-- The file left for a ROM with a catalog entry is the one
`update_rom_config` writes with the effective width/height, starting from
the folder state when its turn came. -/
theorem process_roms_writes_aux (m : Manager) (r : Str) (dw dh : Int)
    (hres : dget m.game_resolutions r = some (dw, dh)) (roms : List Str) :
    roms.Nodup → r ∈ roms → ∀ fs : Dict, ∃ fs2 : Dict,
      dget (roms.foldl (fun fsa rom_name =>
          match dget m.game_resolutions rom_name with
          | some wh =>
              update_rom_config fsa rom_name (m.override_width.getD wh.1)
                (m.override_height.getD wh.2) m.override_x m.override_y
          | none => fsa) fs) (cfg_path r)
        = some (write_config_file (apply_viewport
            (read_config_file fs2 (cfg_path r)) (m.override_width.getD dw)
            (m.override_height.getD dh) m.override_x m.override_y)) := by
  induction roms with
  | nil => intro _ hr; cases hr
  | cons a rs ih =>
      intro hnd hr fs
      obtain ⟨hna, hnrs⟩ := List.nodup_cons.1 hnd
      rw [List.foldl_cons]
      rcases List.mem_cons.1 hr with rfl | hmem
      · refine ⟨fs, ?_⟩
        rw [show (match dget m.game_resolutions r with
            | some wh =>
                update_rom_config fs r (m.override_width.getD wh.1)
                  (m.override_height.getD wh.2) m.override_x m.override_y
            | none => fs)
          = update_rom_config fs r (m.override_width.getD dw)
              (m.override_height.getD dh) m.override_x m.override_y by rw [hres],
          process_roms_untouched m rs r hna]
        exact dget_update_rom_config_self _ _ _ _ _ _
      · exact ih hnrs hmem _

/-- Claim C4 core: the record written by `process_roms` for an identifier
with a catalog entry carries the effective width/height (override wins over
catalog per dimension) and x/y solely from the override, defaulting to 0. -/
theorem process_roms_viewport (m : Manager) (roms : List Str)
    (hnd : roms.Nodup) (r : Str) (hr : r ∈ roms) (dw dh : Int)
    (hres : dget m.game_resolutions r = some (dw, dh)) (fs : Dict) :
    dget (read_config_file (process_roms m fs roms).1 (cfg_path r))
        (chars "custom_viewport_width")
      = some (quoteVal (intStr (m.override_width.getD dw)))
    ∧ dget (read_config_file (process_roms m fs roms).1 (cfg_path r))
        (chars "custom_viewport_height")
      = some (quoteVal (intStr (m.override_height.getD dh)))
    ∧ dget (read_config_file (process_roms m fs roms).1 (cfg_path r))
        (chars "custom_viewport_x")
      = some (quoteVal (intStr (m.override_x.getD 0)))
    ∧ dget (read_config_file (process_roms m fs roms).1 (cfg_path r))
        (chars "custom_viewport_y")
      = some (quoteVal (intStr (m.override_y.getD 0))) := by
  have hproj : (process_roms m fs roms).1
      = roms.foldl (fun fsa rom_name =>
          match dget m.game_resolutions rom_name with
          | some wh =>
              update_rom_config fsa rom_name (m.override_width.getD wh.1)
                (m.override_height.getD wh.2) m.override_x m.override_y
          | none => fsa) fs := by
    simp only [process_roms]
    exact process_roms_fold m roms fs 0 0
  obtain ⟨fs2, hfs2⟩ := process_roms_writes_aux m r dw dh hres roms hnd hr fs
  have hread : read_config_file (process_roms m fs roms).1 (cfg_path r)
      = read_config_string (write_config_file (apply_viewport
          (read_config_file fs2 (cfg_path r)) (m.override_width.getD dw)
          (m.override_height.getD dh) m.override_x m.override_y)) := by
    rw [read_config_file, hproj, hfs2]
  have hg := goodDict_apply_viewport (read_config_file_good fs2 (cfg_path r))
    (m.override_width.getD dw) (m.override_height.getD dh)
    m.override_x m.override_y
  refine ⟨?_, ?_, ?_, ?_⟩
  · rw [hread, dget_read_write _ hg, dget_apply_viewport_width]
  · rw [hread, dget_read_write _ hg, dget_apply_viewport_height]
  · rw [hread, dget_read_write _ hg, dget_apply_viewport_x]
  · rw [hread, dget_read_write _ hg, dget_apply_viewport_y]

/-! ### Facts about `parse_dat` -/

theorem parse_dat_fst (games : List GameElem) :
    ∀ acc : PyDict (Int × Int) × List Str,
      (games.foldl (fun acc g =>
        match parse_game g with
        | (some wh, _) => (dinsert acc.1 g.name wh, acc.2)
        | (none, some w) => (acc.1, acc.2 ++ [w])
        | (none, none) => acc) acc).1
      = games.foldl (fun r g =>
          match (parse_game g).1 with
          | some wh => dinsert r g.name wh
          | none => r) acc.1 := by
  induction games with
  | nil => intro acc; rfl
  | cons g gs ih =>
      intro acc
      rw [List.foldl_cons, List.foldl_cons]
      rcases hpg : parse_game g with ⟨o, w⟩
      cases o with
      | some wh => cases w <;> exact ih _
      | none => cases w <;> exact ih _

/-- A game whose scan stores nothing contributes nothing to the result
map: the overall parse of the remaining games is unchanged. -/
theorem parse_dat_drop (g : GameElem) (hng : (parse_game g).1 = none)
    (gs1 gs2 : List GameElem) :
    (parse_dat (gs1 ++ g :: gs2)).1 = (parse_dat (gs1 ++ gs2)).1 := by
  rw [parse_dat, parse_dat, parse_dat_fst, parse_dat_fst,
    List.foldl_append, List.foldl_append, List.foldl_cons]
  rw [show (match (parse_game g).1 with
      | some wh => dinsert (gs1.foldl (fun r g =>
          match (parse_game g).1 with
          | some wh => dinsert r g.name wh
          | none => r) []) g.name wh
      | none => gs1.foldl (fun r g =>
          match (parse_game g).1 with
          | some wh => dinsert r g.name wh
          | none => r) [])
    = gs1.foldl (fun r g =>
        match (parse_game g).1 with
        | some wh => dinsert r g.name wh
        | none => r) [] by rw [hng]]

/-! ## The claims -/

/-- C1: the claim states that `remove_all_overrides` strips, from every
config file containing any of the five viewport keys, all of those keys,
deleting the file when it becomes empty.  The code tests and pops only
three of the five keys (width, height, aspect_ratio_index), so a config
file holding only `custom_viewport_x` is counted as skipped and left
untouched — while the per-item `remove_rom_config` on the same folder
deletes the file, as documented.  This theorem evaluates both functions at
that input. -/
theorem claim_C1_remove_all_misses_xy :
    dget (read_config_string (chars "custom_viewport_x = \"10\"\n"))
      (chars "custom_viewport_x") = some (chars "\"10\"")
    ∧ remove_all_overrides
        [(chars "a.zip.cfg", chars "custom_viewport_x = \"10\"\n")]
      = ([(chars "a.zip.cfg", chars "custom_viewport_x = \"10\"\n")], 0, 1)
    ∧ (remove_rom_config [(chars "a.zip.cfg", chars "custom_viewport_x = \"10\"\n")]
        (chars "a") true).fs = [] :=
  ⟨by decide, by decide, by decide⟩

/-- C2: invoking `update_rom_config` twice in succession with identical
arguments leaves the target file with byte-identical content after the
second call as after the first. -/
theorem claim_C2_idempotent (fs : Dict) (rom_name : Str) (width height : Int)
    (x y : Option Int) :
    dget (update_rom_config (update_rom_config fs rom_name width height x y)
        rom_name width height x y) (cfg_path rom_name)
      = dget (update_rom_config fs rom_name width height x y)
          (cfg_path rom_name) :=
  update_rom_config_idem_content fs rom_name width height x y

/-- C3: every key of the target record outside the five viewport keys is
still present with an unchanged value after `update_rom_config` and after
`remove_rom_config` (any branch). -/
theorem claim_C3_unrelated_preserved (fs : Dict) (rom_name : Str)
    (width height : Int) (x y : Option Int) (b : Bool) (k : Str)
    (hfs : (dkeys fs).Nodup) (hk : k ∉ viewport_keys) :
    dget (read_config_file (update_rom_config fs rom_name width height x y)
        (cfg_path rom_name)) k
      = dget (read_config_file fs (cfg_path rom_name)) k
    ∧ dget (read_config_file (remove_rom_config fs rom_name b).fs
        (cfg_path rom_name)) k
      = dget (read_config_file fs (cfg_path rom_name)) k := by
  refine ⟨?_, dget_read_remove_rom_config fs rom_name b k hfs hk⟩
  rw [dget_read_update, dget_apply_viewport_other _ _ _ _ _ _ hk]

/-- Witness for C3 at a one-file folder with an unrelated key. -/
theorem claim_C3_witness :
    ((dkeys ([(chars "a.zip.cfg", chars "other_key = 1\n")] : Dict)).Nodup
      ∧ chars "other_key" ∉ viewport_keys)
    ∧ (dget (read_config_file (update_rom_config
          [(chars "a.zip.cfg", chars "other_key = 1\n")] (chars "a")
          10 20 none none) (cfg_path (chars "a"))) (chars "other_key")
        = dget (read_config_file
            [(chars "a.zip.cfg", chars "other_key = 1\n")]
            (cfg_path (chars "a"))) (chars "other_key")
      ∧ dget (read_config_file (remove_rom_config
          [(chars "a.zip.cfg", chars "other_key = 1\n")] (chars "a") true).fs
          (cfg_path (chars "a"))) (chars "other_key")
        = dget (read_config_file
            [(chars "a.zip.cfg", chars "other_key = 1\n")]
            (cfg_path (chars "a"))) (chars "other_key")) :=
  ⟨⟨by decide, by decide⟩,
    claim_C3_unrelated_preserved _ _ 10 20 none none true _ (by decide) (by decide)⟩

/-- C5: after `update_rom_config`, reading the target back yields a record
whose five viewport keys carry the call's arguments — width and height as
given, x/y defaulted to 0 when absent, aspect_ratio_index the constant
`"23"` — all values wrapped in literal double quotes. -/
theorem claim_C5_readback (fs : Dict) (rom_name : Str) (width height : Int)
    (x y : Option Int) :
    dget (read_config_file (update_rom_config fs rom_name width height x y)
        (cfg_path rom_name)) (chars "custom_viewport_width")
      = some (quoteVal (intStr width))
    ∧ dget (read_config_file (update_rom_config fs rom_name width height x y)
        (cfg_path rom_name)) (chars "custom_viewport_height")
      = some (quoteVal (intStr height))
    ∧ dget (read_config_file (update_rom_config fs rom_name width height x y)
        (cfg_path rom_name)) (chars "custom_viewport_x")
      = some (quoteVal (intStr (x.getD 0)))
    ∧ dget (read_config_file (update_rom_config fs rom_name width height x y)
        (cfg_path rom_name)) (chars "custom_viewport_y")
      = some (quoteVal (intStr (y.getD 0)))
    ∧ dget (read_config_file (update_rom_config fs rom_name width height x y)
        (cfg_path rom_name)) (chars "aspect_ratio_index")
      = some (quoteVal (chars "23")) := by
  refine ⟨?_, ?_, ?_, ?_, ?_⟩ <;> rw [dget_read_update]
  · exact dget_apply_viewport_width _ _ _ _ _
  · exact dget_apply_viewport_height _ _ _ _ _
  · exact dget_apply_viewport_x _ _ _ _ _
  · exact dget_apply_viewport_y _ _ _ _ _
  · exact dget_apply_viewport_ari _ _ _ _ _

/-- C4: for every identifier processed by `process_roms` that has a catalog
resolution entry, the effective width written is the override width when
present, else the catalog width — independently for height — and x/y come
solely from the override, defaulting to 0 when absent. -/
theorem claim_C4_precedence (m : Manager) (roms : List Str)
    (hnd : roms.Nodup) (r : Str) (hr : r ∈ roms) (dw dh : Int)
    (hres : dget m.game_resolutions r = some (dw, dh)) (fs : Dict) :
    dget (read_config_file (process_roms m fs roms).1 (cfg_path r))
        (chars "custom_viewport_width")
      = some (quoteVal (intStr (m.override_width.getD dw)))
    ∧ dget (read_config_file (process_roms m fs roms).1 (cfg_path r))
        (chars "custom_viewport_height")
      = some (quoteVal (intStr (m.override_height.getD dh)))
    ∧ dget (read_config_file (process_roms m fs roms).1 (cfg_path r))
        (chars "custom_viewport_x")
      = some (quoteVal (intStr (m.override_x.getD 0)))
    ∧ dget (read_config_file (process_roms m fs roms).1 (cfg_path r))
        (chars "custom_viewport_y")
      = some (quoteVal (intStr (m.override_y.getD 0))) :=
  process_roms_viewport m roms hnd r hr dw dh hres fs

/-- Witness for C4: with catalog resolution (320,240) and override
(1920,1080,null,null) the record carries "1920"/"1080" and x/y "0"; with
no override it carries "320"/"240". -/
theorem claim_C4_witness :
    (dget (read_config_file (process_roms
          ⟨some 1920, some 1080, none, none, [(chars "game", (320, 240))]⟩
          [] [chars "game"]).1 (cfg_path (chars "game")))
        (chars "custom_viewport_width") = some (chars "\"1920\"")
      ∧ dget (read_config_file (process_roms
          ⟨some 1920, some 1080, none, none, [(chars "game", (320, 240))]⟩
          [] [chars "game"]).1 (cfg_path (chars "game")))
        (chars "custom_viewport_height") = some (chars "\"1080\"")
      ∧ dget (read_config_file (process_roms
          ⟨some 1920, some 1080, none, none, [(chars "game", (320, 240))]⟩
          [] [chars "game"]).1 (cfg_path (chars "game")))
        (chars "custom_viewport_x") = some (chars "\"0\"")
      ∧ dget (read_config_file (process_roms
          ⟨some 1920, some 1080, none, none, [(chars "game", (320, 240))]⟩
          [] [chars "game"]).1 (cfg_path (chars "game")))
        (chars "custom_viewport_y") = some (chars "\"0\""))
    ∧ (dget (read_config_file (process_roms
          ⟨none, none, none, none, [(chars "game", (320, 240))]⟩
          [] [chars "game"]).1 (cfg_path (chars "game")))
        (chars "custom_viewport_width") = some (chars "\"320\"")
      ∧ dget (read_config_file (process_roms
          ⟨none, none, none, none, [(chars "game", (320, 240))]⟩
          [] [chars "game"]).1 (cfg_path (chars "game")))
        (chars "custom_viewport_height") = some (chars "\"240\"")) := by
  constructor
  · have h := claim_C4_precedence
      ⟨some 1920, some 1080, none, none, [(chars "game", (320, 240))]⟩
      [chars "game"] (by decide) (chars "game") (by decide) 320 240 (by decide) []
    exact ⟨h.1.trans (by decide), h.2.1.trans (by decide),
      h.2.2.1.trans (by decide), h.2.2.2.trans (by decide)⟩
  · have h := claim_C4_precedence
      ⟨none, none, none, none, [(chars "game", (320, 240))]⟩
      [chars "game"] (by decide) (chars "game") (by decide) 320 240 (by decide) []
    exact ⟨h.1.trans (by decide), h.2.1.trans (by decide)⟩

/-- C6: the serialized file emits the viewport keys present in the record
first, in the fixed order of `viewport_order`, followed by every other
pair sorted as Python's `sorted` sorts them — in particular with keys in
lexicographic order — each line of the form `key = value` with one space
on each side of the equals sign and a trailing newline. -/
theorem claim_C6_write_format (config : Dict) :
    ∃ others : Dict,
      write_config_file config =
        ((viewport_order.filterMap
            (fun k => (dget config k).map (fun v => (k, v))) ++ others).map
          (fun q => q.1 ++ chars " = " ++ q.2 ++ chars "\n")).flatten
      ∧ List.Perm others
          (config.filter (fun q => !(viewport_order.contains q.1)))
      ∧ others.Pairwise (fun p q => pairLe p q = true)
      ∧ others.Pairwise (fun p q => charListLe p.1 q.1 = true) := by
  refine ⟨(config.filter
      (fun q => !(viewport_order.contains q.1))).mergeSort pairLe,
    ?_, List.mergeSort_perm _ _,
    List.sorted_mergeSort pairLe_trans pairLe_total _, ?_⟩
  · rw [write_config_file, emit_pairs]
    congr 1
    apply List.map_congr_left
    intro q _
    rw [mkLine, show chars " = " = [' ', '=', ' '] from rfl,
      show chars "\n" = ['\n'] from rfl]
    simp
  · apply List.Pairwise.imp ?_
      (List.sorted_mergeSort pairLe_trans pairLe_total
        (config.filter (fun q => !(viewport_order.contains q.1))))
    intro a b hab
    rw [pairLe] at hab
    by_cases h : a.1 = b.1
    · rw [h]
      exact charListLe_refl _
    · rw [if_neg h] at hab
      simp [charListLe, hab]

/-- C7: on a target whose record holds only viewport keys,
`remove_rom_config` deletes the file when `delete_if_empty` is true, and
when false writes an existing zero-byte file and reports the record
empty. -/
theorem claim_C7_remove_only_viewport (fs : Dict) (rom_name : Str)
    (hfs : (dkeys fs).Nodup)
    (hex : (dget fs (cfg_path rom_name)).isSome = true)
    (hkeys : ∀ q ∈ read_config_file fs (cfg_path rom_name),
      q.1 ∈ viewport_keys)
    (hne : read_config_file fs (cfg_path rom_name) ≠ []) :
    dget (remove_rom_config fs rom_name true).fs (cfg_path rom_name) = none
    ∧ dget (remove_rom_config fs rom_name false).fs (cfg_path rom_name)
        = some []
    ∧ (remove_rom_config fs rom_name false).is_empty = true := by
  have h1 := remove_rom_config_only_vp fs rom_name hex hkeys hne true
  have h2 := remove_rom_config_only_vp fs rom_name hex hkeys hne false
  rw [if_pos rfl] at h1
  rw [if_neg (by simp)] at h2
  refine ⟨?_, ?_, ?_⟩
  · rw [h1]
    exact dget_derase_self hfs
  · rw [h2]
    exact dget_dinsert_self _ _ _
  · rw [h2]

/-- Witness for C7 at a one-file folder whose record has two viewport
keys and nothing else. -/
theorem claim_C7_witness :
    dget (remove_rom_config
        [(chars "a.zip.cfg",
          chars "aspect_ratio_index = \"23\"\ncustom_viewport_x = \"1\"\n")]
        (chars "a") true).fs (cfg_path (chars "a")) = none
    ∧ dget (remove_rom_config
        [(chars "a.zip.cfg",
          chars "aspect_ratio_index = \"23\"\ncustom_viewport_x = \"1\"\n")]
        (chars "a") false).fs (cfg_path (chars "a")) = some []
    ∧ (remove_rom_config
        [(chars "a.zip.cfg",
          chars "aspect_ratio_index = \"23\"\ncustom_viewport_x = \"1\"\n")]
        (chars "a") false).is_empty = true :=
  claim_C7_remove_only_viewport _ _ (by decide) (by decide) (by decide) (by decide)

/-- C8: `remove_rom_config` takes no action — folder unchanged, `removed`
false — both when the target file is absent and when it holds none of the
five viewport keys, and the two outcomes are logged with distinct
messages. -/
theorem claim_C8_no_action (fs : Dict) (rom_name : Str) (b : Bool) :
    (dget fs (cfg_path rom_name) = none →
      (remove_rom_config fs rom_name b).fs = fs
      ∧ (remove_rom_config fs rom_name b).removed = false
      ∧ (remove_rom_config fs rom_name b).is_empty = false
      ∧ (remove_rom_config fs rom_name b).log_msg
          = chars "No config file found for " ++ rom_name ++ chars ".zip")
    ∧ ((dget fs (cfg_path rom_name)).isSome = true →
      (∀ k ∈ viewport_keys,
        dget (read_config_file fs (cfg_path rom_name)) k = none) →
      (remove_rom_config fs rom_name b).fs = fs
      ∧ (remove_rom_config fs rom_name b).removed = false
      ∧ (remove_rom_config fs rom_name b).is_empty = false
      ∧ (remove_rom_config fs rom_name b).log_msg
          = chars "No viewport overrides found in config for "
              ++ rom_name ++ chars ".zip")
    ∧ chars "No config file found for " ++ rom_name ++ chars ".zip"
        ≠ chars "No viewport overrides found in config for "
            ++ rom_name ++ chars ".zip" := by
  refine ⟨?_, ?_, ?_⟩
  · intro h
    rw [remove_rom_config_missing fs rom_name b h]
    exact ⟨rfl, rfl, rfl, rfl⟩
  · intro hex hnone
    rw [remove_rom_config_no_overrides fs rom_name b hex hnone]
    exact ⟨rfl, rfl, rfl, rfl⟩
  · intro he
    have hlen := congrArg List.length he
    rw [List.length_append, List.length_append, List.length_append,
      List.length_append] at hlen
    have h1 : (chars "No config file found for ").length = 25 := by decide
    have h2 : (chars "No viewport overrides found in config for ").length = 42 := by
      decide
    rw [h1, h2] at hlen
    omega

/-- Witness for C8: a missing target in the empty folder, and a target
whose record has only an unrelated key. -/
theorem claim_C8_witness :
    ((remove_rom_config ([] : Dict) (chars "a") true).fs = []
      ∧ (remove_rom_config ([] : Dict) (chars "a") true).log_msg
          = chars "No config file found for " ++ chars "a" ++ chars ".zip")
    ∧ ((remove_rom_config [(chars "b.zip.cfg", chars "other_key = 1\n")]
          (chars "b") true).fs = [(chars "b.zip.cfg", chars "other_key = 1\n")]
      ∧ (remove_rom_config [(chars "b.zip.cfg", chars "other_key = 1\n")]
          (chars "b") true).log_msg
          = chars "No viewport overrides found in config for "
              ++ chars "b" ++ chars ".zip")
    ∧ chars "No config file found for " ++ chars "a" ++ chars ".zip"
        ≠ chars "No viewport overrides found in config for "
            ++ chars "a" ++ chars ".zip" := by
  have ha := claim_C8_no_action ([] : Dict) (chars "a") true
  have hb := claim_C8_no_action [(chars "b.zip.cfg", chars "other_key = 1\n")]
    (chars "b") true
  have ha1 := ha.1 (by decide)
  have hb1 := hb.2.1 (by decide) (by decide)
  exact ⟨⟨ha1.1, ha1.2.2.2⟩, ⟨hb1.1, hb1.2.2.2⟩, ha.2.2⟩

/-- C10: for a record whose keys are stripped, `=`-free, newline-free and
not starting with `#`, and whose values are stripped and newline-free,
writing the record and reading the file back yields exactly the original
record as a dictionary (same lookups, and a permutation of the original
pair list). -/
theorem claim_C10_roundtrip (c : Dict)
    (hg : ∀ q ∈ c, goodKey q.1 ∧ goodVal q.2) (hnd : (dkeys c).Nodup) :
    (∀ k, dget (read_config_string (write_config_file c)) k = dget c k)
    ∧ List.Perm (read_config_string (write_config_file c)) c := by
  constructor
  · exact dget_read_write c ⟨hg, hnd⟩
  · rw [read_write_eq_emit c ⟨hg, hnd⟩]
    exact emit_pairs_perm c hnd

/-- Witness for C10 on a two-key record (one viewport key, one unrelated
key). -/
theorem claim_C10_witness :
    dget (read_config_string (write_config_file
        [(chars "custom_viewport_width", chars "\"10\""),
         (chars "zkey", chars "v")]))
      (chars "zkey") = some (chars "v")
    ∧ List.Perm (read_config_string (write_config_file
        [(chars "custom_viewport_width", chars "\"10\""),
         (chars "zkey", chars "v")]))
      [(chars "custom_viewport_width", chars "\"10\""),
       (chars "zkey", chars "v")] := by
  have h := claim_C10_roundtrip
    [(chars "custom_viewport_width", chars "\"10\""), (chars "zkey", chars "v")]
    (by decide) (by decide)
  exact ⟨h.1 (chars "zkey"), h.2⟩

/-- C9 counterexample: a game whose display `width` attribute is the empty
string.  `int("")` raises (here: `py_int [] = none`), so the width does
not parse as an integer, yet the parser logs no warning: the empty value
is falsy, so the code treats it as missing and drops the game silently —
contradicting the claim that a warning is logged for it. -/
theorem claim_C9_counterexample :
    py_int [] = none
    ∧ parse_game ⟨chars "gamex", some (some [], some (chars "240")), none⟩
        = (none, none) :=
  ⟨by decide, by decide⟩

/-- C9 (amended): for every game element whose effective width and height
attribute values (after the display→video fallback) are present and
non-empty, if either fails integer parsing then no entry is stored, a
warning identifying the game is logged, and the overall parse is the
parse of the catalog without that game (it still succeeds, the game
dropped entirely). -/
theorem claim_C9_invalid_resolution (g : GameElem)
    (ht : truthyS (effective_wh g).1 = true ∧ truthyS (effective_wh g).2 = true)
    (hp : py_int ((effective_wh g).1.getD []) = none
      ∨ py_int ((effective_wh g).2.getD []) = none) :
    (parse_game g).1 = none
    ∧ (parse_game g).2 = some (chars "Warning: Invalid resolution for "
        ++ g.name ++ chars ": " ++ (effective_wh g).1.getD []
        ++ chars "x" ++ (effective_wh g).2.getD [])
    ∧ ∀ gs1 gs2, (parse_dat (gs1 ++ g :: gs2)).1 = (parse_dat (gs1 ++ gs2)).1 := by
  have hpg : parse_game g = (none, some (chars "Warning: Invalid resolution for "
      ++ g.name ++ chars ": " ++ (effective_wh g).1.getD []
      ++ chars "x" ++ (effective_wh g).2.getD [])) := by
    simp only [parse_game]
    rw [if_pos (by rw [ht.1, ht.2]; rfl)]
    rcases hp with hp | hp
    · rw [hp]
    · cases hw : py_int ((effective_wh g).1.getD []) with
      | none => rw [hp]
      | some w => rw [hp]
  exact ⟨by rw [hpg], by rw [hpg],
    fun gs1 gs2 => parse_dat_drop g (by rw [hpg]) gs1 gs2⟩

/-- Witness for the amended C9 at a game with width "abc". -/
theorem claim_C9_witness :
    (parse_game ⟨chars "g1", some (some (chars "abc"), some (chars "240")),
        none⟩).1 = none
    ∧ (parse_game ⟨chars "g1", some (some (chars "abc"), some (chars "240")),
        none⟩).2
      = some (chars "Warning: Invalid resolution for g1: abcx240")
    ∧ (parse_dat [⟨chars "g1", some (some (chars "abc"), some (chars "240")),
        none⟩]).1 = (parse_dat []).1 := by
  have h := claim_C9_invalid_resolution
    ⟨chars "g1", some (some (chars "abc"), some (chars "240")), none⟩
    ⟨by decide, by decide⟩ (Or.inl (by decide))
  exact ⟨h.1, h.2.1.trans (by decide), h.2.2 [] []⟩
